import Mathlib

/-!
# Verification of the `searchutil` state-space search framework

This file gives a shallow embedding of the python module `searchutil.py`:
a search-problem interface, a lazy-deletion priority queue, uniform cost
search (Dijkstra's algorithm), depth-first search, and a memoized
dynamic-programming solver.  Python integers are modelled as `Int`,
dictionaries as functions into `Option`, and the binary heap of `heapq`
as a list kept sorted by the lexicographic order on `(priority, state)`
tuples (observationally equivalent: `heappop` always returns the smallest
tuple).  Loops and recursions carry explicit fuel; a result of `none`
means the computation did not complete within the given recursion budget
(modelling python non-termination / stack overflow), and `Except.error`
models an uncaught python exception (`ValueError` from `min` on an empty
sequence, `KeyError` from a missing dictionary key).
-/

set_option maxHeartbeats 1600000

namespace SearchUtil

/-- The abstract search-problem interface: `startState`, `isGoal`,
`succAndCost` returning `(action, newState, cost)` edges. -/
structure SearchProblem (σ α : Type) where
  startState : σ
  isGoal : σ → Bool
  succAndCost : σ → List (α × σ × Int)

/-- The sentinel priority marking a finalized state in `PriorityQueue`
(`self.DONE = -100000` in the source). -/
def DONE : Int := -100000

/-- The order in which `heapq` delivers `(priority, state)` tuples:
lexicographic comparison, priorities first, ties broken by the state. -/
def entryLE {σ : Type} [LinearOrder σ] (e₁ e₂ : Int × σ) : Prop :=
  e₁.1 < e₂.1 ∨ (e₁.1 = e₂.1 ∧ e₁.2 ≤ e₂.2)

instance entryLE.dec {σ : Type} [LinearOrder σ] : DecidableRel (entryLE (σ := σ)) := by
  intro e₁ e₂
  unfold entryLE
  infer_instance

instance entryLE.total {σ : Type} [LinearOrder σ] : IsTotal (Int × σ) entryLE := by
  constructor
  intro a b
  rcases lt_trichotomy a.1 b.1 with h | h | h
  · exact Or.inl (Or.inl h)
  · rcases le_total a.2 b.2 with h2 | h2
    · exact Or.inl (Or.inr ⟨h, h2⟩)
    · exact Or.inr (Or.inr ⟨h.symm, h2⟩)
  · exact Or.inr (Or.inl h)

instance entryLE.trans {σ : Type} [LinearOrder σ] : IsTrans (Int × σ) entryLE := by
  constructor
  rintro a b c (h₁ | ⟨h₁, h₁'⟩) (h₂ | ⟨h₂, h₂'⟩)
  · exact Or.inl (h₁.trans h₂)
  · exact Or.inl (h₂ ▸ h₁)
  · exact Or.inl (h₁ ▸ h₂)
  · exact Or.inr ⟨h₁.trans h₂, h₁'.trans h₂'⟩

/-- The lazy-deletion priority queue: a binary min-heap of
`(priority, state)` entries (modelled as a list sorted by `entryLE`)
plus the side map `priorities` from state to best known priority. -/
structure PriorityQueue (σ : Type) where
  heap : List (Int × σ)
  priorities : σ → Option Int

/-- `PriorityQueue.__init__`: empty heap, empty priority map. -/
def PriorityQueue.empty {σ : Type} : PriorityQueue σ :=
  ⟨[], fun _ => none⟩

/-- `PriorityQueue.update`: insert `state` if absent, or lower its priority
when `newPriority` is strictly smaller; always pushes a fresh heap entry.
Returns whether an update occurred together with the new queue. -/
def PriorityQueue.update {σ : Type} [LinearOrder σ] (pq : PriorityQueue σ)
    (state : σ) (newPriority : Int) : Bool × PriorityQueue σ :=
  match pq.priorities state with
  | none =>
    (true, ⟨List.orderedInsert entryLE (newPriority, state) pq.heap,
      fun x => if x = state then some newPriority else pq.priorities x⟩)
  | some oldPriority =>
    if newPriority < oldPriority then
      (true, ⟨List.orderedInsert entryLE (newPriority, state) pq.heap,
        fun x => if x = state then some newPriority else pq.priorities x⟩)
    else
      (false, pq)

/-- The pop loop of `PriorityQueue.removeMin`: pop heap entries, skipping
any whose state already carries the `DONE` sentinel, until a live entry
is found; return it together with the remaining heap. -/
def removeMinAux {σ : Type} (priorities : σ → Option Int) :
    List (Int × σ) → Option (σ × Int) × List (Int × σ)
  | [] => (none, [])
  | (priority, state) :: rest =>
    if priorities state = some DONE then removeMinAux priorities rest
    else (some (state, priority), rest)

/-- `PriorityQueue.removeMin`: return the live minimum entry and mark its
state with the `DONE` sentinel, or `none` when the heap is exhausted. -/
def PriorityQueue.removeMin {σ : Type} [DecidableEq σ] (pq : PriorityQueue σ) :
    Option (σ × Int) × PriorityQueue σ :=
  match removeMinAux pq.priorities pq.heap with
  | (none, heap') => (none, ⟨heap', pq.priorities⟩)
  | (some (state, priority), heap') =>
    (some (state, priority),
      ⟨heap', fun x => if x = state then some DONE else pq.priorities x⟩)

/-- Result fields set by `UniformCostSearch.solve`. -/
structure UCSResult (σ α : Type) where
  actions : Option (List α)
  totalCost : Option Int
  numStatesExplored : Nat
deriving DecidableEq

/-- The backpointer walk of `UniformCostSearch.solve`: follow
`backpointers` from the popped goal back to `startState`, collecting the
actions (the python code appends then reverses; consing while walking
produces the same final list).  `none` models a missing backpointer
(python `KeyError`) or fuel exhaustion; neither occurs in real runs. -/
def reconstructActions {σ α : Type} [DecidableEq σ]
    (backpointers : σ → Option (α × σ)) (startState : σ) :
    Nat → σ → List α → Option (List α)
  | 0, _, _ => none
  | fuel + 1, state, acc =>
    if state = startState then some acc
    else
      match backpointers state with
      | none => none
      | some (action, prevState) =>
        reconstructActions backpointers startState fuel prevState (action :: acc)

/-- The mutable state of the `while` loop in `UniformCostSearch.solve`. -/
structure UCSLoopState (σ α : Type) where
  frontier : PriorityQueue σ
  backpointers : σ → Option (α × σ)
  numStatesExplored : Nat

/-- The `for action, newState, cost in problem.succAndCost(state)` loop of
`UniformCostSearch.solve`: relax every outgoing edge, overwriting the
backpointer of `newState` whenever `frontier.update` succeeded. -/
def ucsExpand {σ α : Type} [LinearOrder σ] (state : σ) (pastCost : Int) :
    List (α × σ × Int) → PriorityQueue σ → (σ → Option (α × σ)) →
    PriorityQueue σ × (σ → Option (α × σ))
  | [], frontier, backpointers => (frontier, backpointers)
  | (action, newState, cost) :: rest, frontier, backpointers =>
    match frontier.update newState (pastCost + cost) with
    | (true, frontier') =>
      ucsExpand state pastCost rest frontier'
        (fun x => if x = newState then some (action, state) else backpointers x)
    | (false, frontier') =>
      ucsExpand state pastCost rest frontier' backpointers

/-- One iteration of the `while True` loop of `UniformCostSearch.solve`:
pop the minimum; on exhaustion stop with absent fields; on a goal stop
after reconstructing the path; otherwise expand the popped state. -/
def ucsStep {σ α : Type} [LinearOrder σ] (p : SearchProblem σ α) (recFuel : Nat)
    (ls : UCSLoopState σ α) : UCSResult σ α ⊕ UCSLoopState σ α :=
  match ls.frontier.removeMin with
  | (none, _) => Sum.inl ⟨none, none, ls.numStatesExplored⟩
  | (some (state, pastCost), frontier') =>
    if p.isGoal state then
      Sum.inl ⟨reconstructActions ls.backpointers p.startState recFuel state [],
        some pastCost, ls.numStatesExplored + 1⟩
    else
      match ucsExpand state pastCost (p.succAndCost state) frontier' ls.backpointers with
      | (frontier'', backpointers') =>
        Sum.inr ⟨frontier'', backpointers', ls.numStatesExplored + 1⟩

/-- The `while True` loop of `UniformCostSearch.solve`, fuel-indexed. -/
def ucsLoop {σ α : Type} [LinearOrder σ] (p : SearchProblem σ α) (recFuel : Nat) :
    Nat → UCSLoopState σ α → Option (UCSResult σ α)
  | 0, _ => none
  | fuel + 1, ls =>
    match ucsStep p recFuel ls with
    | Sum.inl r => some r
    | Sum.inr ls' => ucsLoop p recFuel fuel ls'

/-- `UniformCostSearch.solve`: push the start state at priority `0` into a
fresh frontier and run the loop.  `none` means the run did not complete
within `fuel` iterations. -/
def ucsSolve {σ α : Type} [LinearOrder σ] (p : SearchProblem σ α) (fuel : Nat) :
    Option (UCSResult σ α) :=
  ucsLoop p fuel fuel
    ⟨(PriorityQueue.empty.update p.startState 0).2, fun _ => none, 0⟩

/-- Result fields set by `DepthFirstSearch.solve` (`size` is the
"graph size" heuristic counter). -/
structure DFSState (σ α : Type) where
  solution : Option σ
  actions : Option (List α)
  totalCost : Option Int
  numStatesExplored : Nat
  size : Nat
deriving DecidableEq

/-- The local `recurse` of `DepthFirstSearch.solve`.  Fuel is consumed at
every call entry (each python call consumes a stack frame even when it
short-circuits); `none` aborts the whole run, modelling a recursion that
never returns.  The successor loop appends the edge to `history` before
recursing and pops it afterwards, here realised by passing
`history ++ [edge]` to the child and the unchanged `history` onward. -/
def dfsRecurse {σ α : Type} (p : SearchProblem σ α) :
    Nat → σ → Int → List (α × σ × Int) → DFSState σ α → Option (DFSState σ α)
  | 0, _, _, _, _ => none
  | fuel + 1, state, pastCost, history, st =>
    if st.solution.isSome then some st
    else
      if p.isGoal state then
        some { st with
          numStatesExplored := st.numStatesExplored + 1,
          solution := some state,
          actions := some (history.map (fun e => e.1)),
          totalCost := some pastCost }
      else
        (p.succAndCost state).foldlM
          (fun st' e =>
            dfsRecurse p fuel e.2.1 (pastCost + e.2.2) (history ++ [e]) st')
          { st with
            numStatesExplored := st.numStatesExplored + 1,
            size := st.size + (p.succAndCost state).length }

/-- `DepthFirstSearch.solve`: run `recurse` from the start state with cost
`0` and empty history, starting from all-absent result fields. -/
def dfsSolve {σ α : Type} (p : SearchProblem σ α) (fuel : Nat) :
    Option (DFSState σ α) :=
  dfsRecurse p fuel p.startState 0 [] ⟨none, none, none, 0, 0⟩

/-- Strict comparison of the 4-tuples `(futureCost, action, newState,
cost)` that python's `min` performs inside `dynamicProgramming`. -/
def tupleLT {σ α : Type} [LinearOrder σ] [LinearOrder α]
    (x y : Int × α × σ × Int) : Prop :=
  x.1 < y.1 ∨ (x.1 = y.1 ∧ (x.2.1 < y.2.1 ∨ (x.2.1 = y.2.1 ∧
    (x.2.2.1 < y.2.2.1 ∨ (x.2.2.1 = y.2.2.1 ∧ x.2.2.2 < y.2.2.2)))))

instance tupleLT.dec {σ α : Type} [LinearOrder σ] [LinearOrder α] :
    DecidableRel (tupleLT (σ := σ) (α := α)) := by
  intro x y
  unfold tupleLT
  infer_instance

/-- Python's `min` over a list of 4-tuples: `none` on the empty list
(where python raises `ValueError`), otherwise the first minimal element
(later elements replace the current one only when strictly smaller). -/
def tupleMin {σ α : Type} [LinearOrder σ] [LinearOrder α] :
    List (Int × α × σ × Int) → Option (Int × α × σ × Int)
  | [] => none
  | x :: xs => some (xs.foldl (fun best y => if tupleLT y best then y else best) x)

/-- The memo cache of `dynamicProgramming`:
state ↦ `(futureCost, best action, newState, cost)`. -/
def DPCache (σ α : Type) : Type :=
  σ → Option (Int × α × σ × Int)

/-- One step of the generator that `dynamicProgramming` hands to `min`:
evaluate `(cost + recurse(newState), action, newState, cost)` for the
next edge, threading the shared cache and propagating a raised exception
(`Except.error`) or non-termination (`none`). -/
def dpFoldStep {σ α : Type}
    (recurse : σ → DPCache σ α → Option (Except Unit (Int × DPCache σ α)))
    (acc : Option (Except Unit (List (Int × α × σ × Int) × DPCache σ α)))
    (e : α × σ × Int) : Option (Except Unit (List (Int × α × σ × Int) × DPCache σ α)) :=
  match acc with
  | none => none
  | some (Except.error u) => some (Except.error u)
  | some (Except.ok (tuples, cache')) =>
    match recurse e.2.1 cache' with
    | none => none
    | some (Except.error u) => some (Except.error u)
    | some (Except.ok (f, cache'')) =>
      some (Except.ok (tuples ++ [(e.2.2 + f, e.1, e.2.1, e.2.2)], cache''))

/-- The local `recurse` of `dynamicProgramming`: `0` on a goal, otherwise
memoized minimum over `(cost + recurse(newState), action, newState,
cost)` for every outgoing edge.  The generator passed to `min` evaluates
the recursive calls left to right, threading the shared cache; an empty
edge list reaches `min` with an empty sequence, i.e. `ValueError`.
Outer `none` is fuel exhaustion (unbounded recursion); `Except.error`
is an uncaught exception. -/
def dpRecurse {σ α : Type} [LinearOrder σ] [LinearOrder α] (p : SearchProblem σ α) :
    Nat → σ → DPCache σ α → Option (Except Unit (Int × DPCache σ α))
  | 0, _, _ => none
  | fuel + 1, state, cache =>
    if p.isGoal state then some (Except.ok (0, cache))
    else
      match cache state with
      | some v => some (Except.ok (v.1, cache))
      | none =>
        match
          (p.succAndCost state).foldl
            (dpFoldStep (fun s c => dpRecurse p fuel s c))
            (some (Except.ok (([], cache) : List (Int × α × σ × Int) × DPCache σ α)))
        with
        | none => none
        | some (Except.error u) => some (Except.error u)
        | some (Except.ok (tuples, cache')) =>
          match tupleMin tuples with
          | none => some (Except.error ())
          | some m =>
            some (Except.ok (m.1, fun x => if x = state then some m else cache' x))

/-- The reconstruction loop of `dynamicProgramming`: follow the cached
best edge from each non-goal state, appending `(action, newState, cost)`
to the history.  A missing cache entry is a python `KeyError`. -/
def dpReconstruct {σ α : Type} (p : SearchProblem σ α) (cache : DPCache σ α) :
    Nat → σ → List (α × σ × Int) → Option (Except Unit (List (α × σ × Int)))
  | 0, _, _ => none
  | fuel + 1, state, acc =>
    if p.isGoal state then some (Except.ok acc)
    else
      match cache state with
      | none => some (Except.error ())
      | some (_, action, newState, cost) =>
        dpReconstruct p cache fuel newState (acc ++ [(action, newState, cost)])

/-- `dynamicProgramming`: compute the start state's future cost with the
memoized recursion, then reconstruct `(totalCost, history)` by following
the cached best edges. -/
def dynamicProgramming {σ α : Type} [LinearOrder σ] [LinearOrder α]
    (p : SearchProblem σ α) (fuel : Nat) :
    Option (Except Unit (Int × List (α × σ × Int))) :=
  match dpRecurse p fuel p.startState (fun _ => none) with
  | none => none
  | some (Except.error u) => some (Except.error u)
  | some (Except.ok (totalCost, cache)) =>
    match dpReconstruct p cache fuel p.startState [] with
    | none => none
    | some (Except.error u) => some (Except.error u)
    | some (Except.ok history) => some (Except.ok (totalCost, history))

/-- A client-visible operation on one `PriorityQueue` instance. -/
inductive PQOp (σ : Type) where
  | update (state : σ) (newPriority : Int)
  | removeMin
deriving DecidableEq

/-- Run a sequence of queue operations, collecting every `removeMin`
result in order. -/
def runOps {σ : Type} [LinearOrder σ] :
    List (PQOp σ) → PriorityQueue σ → List (Option (σ × Int)) × PriorityQueue σ
  | [], pq => ([], pq)
  | PQOp.update s q :: rest, pq => runOps rest (pq.update s q).2
  | PQOp.removeMin :: rest, pq =>
    match pq.removeMin with
    | (res, pq') =>
      match runOps rest pq' with
      | (results, pq'') => (res :: results, pq'')

/-- The states returned by the `removeMin` calls of an operation run. -/
def removedStates {σ : Type} [LinearOrder σ] (ops : List (PQOp σ)) (pq : PriorityQueue σ) :
    List σ :=
  (runOps ops pq).1.filterMap (fun r => r.map Prod.fst)

/-!  Specification-side notions: paths, their costs, and the shape
hypotheses (finiteness, non-negative costs, acyclicity) of the claims.
These are stated over the same `SearchProblem` record. -/

/-- `chainFrom p s edges`: every consecutive edge of `edges` exists in the
successor relation, starting from `s`. -/
def chainFrom {σ α : Type} (p : SearchProblem σ α) : σ → List (α × σ × Int) → Prop
  | _, [] => True
  | s, e :: rest => e ∈ p.succAndCost s ∧ chainFrom p e.2.1 rest

instance chainFrom.dec {σ α : Type} [DecidableEq σ] [DecidableEq α]
    (p : SearchProblem σ α) : ∀ (s : σ) (edges : List (α × σ × Int)),
      Decidable (chainFrom p s edges)
  | _, [] => Decidable.isTrue trivial
  | _, e :: rest =>
    @instDecidableAnd _ _ _ (chainFrom.dec p e.2.1 rest)

/-- The state in which a path that starts at `s` ends. -/
def pathEnd {σ α : Type} (s : σ) : List (α × σ × Int) → σ
  | [] => s
  | e :: rest => pathEnd e.2.1 rest

/-- The summed edge costs of a path. -/
def costSum {σ α : Type} (edges : List (α × σ × Int)) : Int :=
  (edges.map (fun e => e.2.2)).sum

/-- A valid path from the start state to a goal state. -/
def IsGoalPath {σ α : Type} (p : SearchProblem σ α) (edges : List (α × σ × Int)) : Prop :=
  chainFrom p p.startState edges ∧ p.isGoal (pathEnd p.startState edges) = true

/-- The costs of all start-to-goal paths. -/
def goalCosts {σ α : Type} (p : SearchProblem σ α) : Set Int :=
  {c | ∃ edges, IsGoalPath p edges ∧ costSum edges = c}

/-- The costs of all paths from the start state to `t`. -/
def reachCosts {σ α : Type} (p : SearchProblem σ α) (t : σ) : Set Int :=
  {c | ∃ edges, chainFrom p p.startState edges ∧ pathEnd p.startState edges = t ∧
    costSum edges = c}

/-- `states` is a finite universe for the problem: it contains the start
state and is closed under the successor relation. -/
def ClosedUnder {σ α : Type} (p : SearchProblem σ α) (states : List σ) : Prop :=
  p.startState ∈ states ∧ ∀ s ∈ states, ∀ e ∈ p.succAndCost s, e.2.1 ∈ states

/-- Every edge cost returned by `succAndCost` is non-negative. -/
def NonnegCosts {σ α : Type} (p : SearchProblem σ α) : Prop :=
  ∀ s : σ, ∀ e ∈ p.succAndCost s, 0 ≤ e.2.2

/-- No state of `states` lies on a non-trivial cycle. -/
def Acyclic {σ α : Type} (p : SearchProblem σ α) (states : List σ) : Prop :=
  ∀ s ∈ states, ∀ edges, edges ≠ [] → chainFrom p s edges → pathEnd s edges ≠ s

instance ClosedUnder.dec {σ α : Type} [DecidableEq σ] (p : SearchProblem σ α)
    (states : List σ) : Decidable (ClosedUnder p states) := by
  unfold ClosedUnder
  infer_instance

instance IsGoalPath.dec {σ α : Type} [DecidableEq σ] [DecidableEq α]
    (p : SearchProblem σ α) (edges : List (α × σ × Int)) :
    Decidable (IsGoalPath p edges) := by
  unfold IsGoalPath
  infer_instance

/-- Fuel that always suffices for `ucsSolve` on a problem whose reachable
states lie in `states`. -/
def ucsFuelBound {σ α : Type} (p : SearchProblem σ α) (states : List σ) : Nat :=
  states.length + (states.map (fun s => (p.succAndCost s).length)).sum + 3

/-- All costs from `s` of paths ending in a goal state (the "future cost"
candidates of `dynamicProgramming`). -/
def futureCosts {σ α : Type} (p : SearchProblem σ α) (s : σ) : Set Int :=
  {c | ∃ edges, chainFrom p s edges ∧ p.isGoal (pathEnd s edges) = true ∧
    costSum edges = c}

/-- Termination measure for the `while` loop of `ucsSolve`: heap entries
plus the out-degrees of the not-yet-finalized states of the universe. -/
def ucsMeasure {σ α : Type} (p : SearchProblem σ α) (states : List σ)
    (ls : UCSLoopState σ α) : Nat :=
  ls.frontier.heap.length +
    ((states.filter
      (fun s => !(decide (ls.frontier.priorities s = some DONE)))).map
        (fun s => (p.succAndCost s).length)).sum

/-!  Concrete problems used as counterexamples and witnesses. -/

/-- The spec's example scenario: states A=0, B=1, C=2, D=3, edges
A→B cost 1, A→C cost 4, B→D cost 1, C→D cost 1, goal D. -/
def exampleProblem : SearchProblem Nat Nat :=
  ⟨0, fun s => s == 3, fun s =>
    if s = 0 then [(10, 1, 1), (11, 2, 4)]
    else if s = 1 then [(12, 3, 1)]
    else if s = 2 then [(13, 3, 1)]
    else []⟩

/-- `exampleProblem` with every successor list reversed. -/
def exampleProblemRev : SearchProblem Nat Nat :=
  ⟨0, fun s => s == 3, fun s =>
    if s = 0 then [(11, 2, 4), (10, 1, 1)]
    else if s = 1 then [(12, 3, 1)]
    else if s = 2 then [(13, 3, 1)]
    else []⟩

/-- A non-goal start state with no outgoing edges (the spec's second
example scenario). -/
def deadEndProblem : SearchProblem Nat Nat :=
  ⟨0, fun _ => false, fun _ => []⟩

/-- A start state with a self-loop listed before the edge to the goal. -/
def cycleProblem : SearchProblem Nat Nat :=
  ⟨0, fun s => s == 1, fun s => if s = 0 then [(5, 0, 1), (6, 1, 1)] else []⟩

/-- A diamond without goals: 0→1, 0→2, 1→3, 2→3; state 3 is reached along
two distinct paths. -/
def diamondProblem : SearchProblem Nat Nat :=
  ⟨0, fun _ => false, fun s =>
    if s = 0 then [(1, 1, 1), (2, 2, 1)]
    else if s = 1 then [(3, 3, 1)]
    else if s = 2 then [(4, 3, 1)]
    else []⟩

/-- An acyclic problem with one negative edge cost: 0→3 cost 2, 0→1 cost
3, 1→3 cost −2, goal 3.  The cheapest path costs 1, but uniform cost
search returns 2. -/
def negCostProblem : SearchProblem Nat Nat :=
  ⟨0, fun s => s == 3, fun s =>
    if s = 0 then [(20, 3, 2), (21, 1, 3)]
    else if s = 1 then [(22, 3, -2)]
    else []⟩

/-- Invariant of the memo cache of `dynamicProgramming`: every entry
belongs to a non-goal state, caches one of its real outgoing edges
together with the true least future cost, and its destination is either
a goal or itself cached. -/
def CacheOK {σ α : Type} [LinearOrder σ] [LinearOrder α] (p : SearchProblem σ α)
    (cache : DPCache σ α) : Prop :=
  ∀ s v, cache s = some v → p.isGoal s = false ∧ v.2 ∈ p.succAndCost s ∧
    IsLeast (futureCosts p s) v.1 ∧
    (p.isGoal v.2.2.1 = true ∨ cache v.2.2.1 ≠ none)

/-- Pointwise refinement between frontiers produced by relaxation:
every priority is either unchanged or lowered to a still-live value.
In particular the set of finalized (`DONE`) states is unchanged. -/
def priRefines {σ : Type} (fr' fr : PriorityQueue σ) : Prop :=
  ∀ s, fr'.priorities s = fr.priorities s ∨
    (fr.priorities s ≠ some DONE ∧ ∃ q', fr'.priorities s = some q' ∧ q' ≠ DONE ∧
      ∀ q, fr.priorities s = some q → q' ≤ q)

/-- The core loop invariant of `UniformCostSearch.solve` over the ghost
list `fin` of finalized `(state, popped priority)` pairs in pop order:
everything except the relaxation completeness of finalized states. -/
structure UCSBase {σ α : Type} [LinearOrder σ] (p : SearchProblem σ α)
    (states : List σ) (fin : List (σ × Int)) (ls : UCSLoopState σ α) : Prop where
  fin_mem : ∀ x ∈ fin, x.1 ∈ states
  fin_nodup : (fin.map Prod.fst).Nodup
  fin_done : ∀ s, ls.frontier.priorities s = some DONE ↔ s ∈ fin.map Prod.fst
  fin_nongoal : ∀ x ∈ fin, p.isGoal x.1 = false
  fin_least : ∀ x ∈ fin, IsLeast (reachCosts p x.1) x.2
  fin_bp : ∀ (i : Nat) (hi : i < fin.length), (fin.get ⟨i, hi⟩).1 ≠ p.startState →
    ∃ (j : Nat) (hj : j < fin.length) (a : α) (c : Int), j < i ∧
      ls.backpointers (fin.get ⟨i, hi⟩).1 = some (a, (fin.get ⟨j, hj⟩).1) ∧
      (a, (fin.get ⟨i, hi⟩).1, c) ∈ p.succAndCost (fin.get ⟨j, hj⟩).1 ∧
      (fin.get ⟨i, hi⟩).2 = (fin.get ⟨j, hj⟩).2 + c
  start_pri : ls.frontier.priorities p.startState = some 0 ∨
    p.startState ∈ fin.map Prod.fst
  disc : ∀ s q, ls.frontier.priorities s = some q → q ≠ DONE →
    s ∈ states ∧ (∀ x ∈ fin, x.2 ≤ q) ∧
    ((s = p.startState ∧ q = 0) ∨
      ∃ u du a c, (u, du) ∈ fin ∧ (a, s, c) ∈ p.succAndCost u ∧ q = du + c) ∧
    (s ≠ p.startState → ∃ u du a c, (u, du) ∈ fin ∧
      ls.backpointers s = some (a, u) ∧ (a, s, c) ∈ p.succAndCost u ∧ q = du + c)
  heap_sorted : List.Pairwise entryLE ls.frontier.heap
  heap_covered : ∀ e ∈ ls.frontier.heap, ∃ q, ls.frontier.priorities e.2 = some q ∧
    (q ≠ DONE → q ≤ e.1)
  heap_present : ∀ s q, ls.frontier.priorities s = some q → q ≠ DONE →
    (q, s) ∈ ls.frontier.heap
  explored_eq : ls.numStatesExplored = fin.length

/-- Relaxation completeness: every edge out of a finalized state leads to
a state that is finalized or live with a priority at most the relaxed
value. -/
def UCSRelaxed {σ α : Type} [LinearOrder σ] (p : SearchProblem σ α)
    (fin : List (σ × Int)) (ls : UCSLoopState σ α) : Prop :=
  ∀ x ∈ fin, ∀ e ∈ p.succAndCost x.1, e.2.1 ∈ fin.map Prod.fst ∨
    ∃ q, ls.frontier.priorities e.2.1 = some q ∧ q ≠ DONE ∧ q ≤ x.2 + e.2.2

/-- The full loop invariant of `UniformCostSearch.solve`. -/
def UCSInv {σ α : Type} [LinearOrder σ] (p : SearchProblem σ α) (states : List σ)
    (fin : List (σ × Int)) (ls : UCSLoopState σ α) : Prop :=
  UCSBase p states fin ls ∧ UCSRelaxed p fin ls

/-! ### Path algebra -/

theorem pathEnd_append {σ α : Type} (s : σ) (l₁ l₂ : List (α × σ × Int)) :
    pathEnd s (l₁ ++ l₂) = pathEnd (pathEnd s l₁) l₂ := by
  induction l₁ generalizing s with
  | nil => rfl
  | cons e rest ih => simpa [pathEnd] using ih e.2.1

theorem chainFrom_append {σ α : Type} (p : SearchProblem σ α) (s : σ)
    (l₁ l₂ : List (α × σ × Int)) :
    chainFrom p s (l₁ ++ l₂) ↔ chainFrom p s l₁ ∧ chainFrom p (pathEnd s l₁) l₂ := by
  induction l₁ generalizing s with
  | nil => simp [chainFrom, pathEnd]
  | cons e rest ih => simp [chainFrom, pathEnd, ih, and_assoc]

theorem costSum_nil {σ α : Type} : costSum ([] : List (α × σ × Int)) = 0 := rfl

theorem costSum_cons {σ α : Type} (e : α × σ × Int) (l : List (α × σ × Int)) :
    costSum (e :: l) = e.2.2 + costSum l := by
  simp [costSum]

theorem costSum_append {σ α : Type} (l₁ l₂ : List (α × σ × Int)) :
    costSum (l₁ ++ l₂) = costSum l₁ + costSum l₂ := by
  simp [costSum]

theorem chainFrom_costSum_nonneg {σ α : Type} {p : SearchProblem σ α}
    (hnn : NonnegCosts p) : ∀ (s : σ) (edges : List (α × σ × Int)),
    chainFrom p s edges → 0 ≤ costSum edges := by
  intro s edges
  induction edges generalizing s with
  | nil => intro _; simp [costSum]
  | cons e rest ih =>
    intro h
    obtain ⟨he, hrest⟩ := h
    have h1 : 0 ≤ e.2.2 := hnn s e he
    have h2 : 0 ≤ costSum rest := ih e.2.1 hrest
    rw [costSum_cons]
    omega

theorem chainFrom_pathEnd_mem {σ α : Type} {p : SearchProblem σ α} {states : List σ}
    (hcl : ClosedUnder p states) : ∀ (s : σ) (edges : List (α × σ × Int)),
    s ∈ states → chainFrom p s edges → pathEnd s edges ∈ states := by
  intro s edges
  induction edges generalizing s with
  | nil => intro hs _; exact hs
  | cons e rest ih =>
    intro hs h
    obtain ⟨he, hrest⟩ := h
    exact ih e.2.1 (hcl.2 s hs e he) hrest

theorem reachCosts_zero {σ α : Type} (p : SearchProblem σ α) :
    (0 : Int) ∈ reachCosts p p.startState :=
  ⟨[], trivial, rfl, rfl⟩

theorem reachCosts_nonneg {σ α : Type} {p : SearchProblem σ α}
    (hnn : NonnegCosts p) {t : σ} {c : Int} (hc : c ∈ reachCosts p t) : 0 ≤ c := by
  obtain ⟨edges, hch, _, hcost⟩ := hc
  exact hcost ▸ chainFrom_costSum_nonneg hnn _ edges hch

theorem reachCosts_extend {σ α : Type} {p : SearchProblem σ α} {u t : σ}
    {c cc : Int} {a : α} (hc : c ∈ reachCosts p u) (he : (a, t, cc) ∈ p.succAndCost u) :
    c + cc ∈ reachCosts p t := by
  obtain ⟨edges, hch, hend, hcost⟩ := hc
  refine ⟨edges ++ [(a, t, cc)], ?_, ?_, ?_⟩
  · rw [chainFrom_append]
    exact ⟨hch, by simpa [chainFrom, hend] using he⟩
  · simp [pathEnd_append, pathEnd]
  · rw [costSum_append, hcost]
    simp [costSum]

/-- Along a chain from a member of a closed, duplicate-free, acyclic
universe, the visited states are pairwise distinct. -/
theorem chain_nodup {σ α : Type} {p : SearchProblem σ α} {states : List σ}
    (hcl : ClosedUnder p states) (hac : Acyclic p states) :
    ∀ (edges : List (α × σ × Int)) (s : σ), s ∈ states → chainFrom p s edges →
      (s :: edges.map (fun e => e.2.1)).Nodup := by
  intro edges
  induction edges with
  | nil => intro s _ _; simp
  | cons e rest ih =>
    intro s hs hch
    obtain ⟨he, hrest⟩ := hch
    have hs1 : e.2.1 ∈ states := hcl.2 s hs e he
    have htail := ih e.2.1 hs1 hrest
    simp only [List.map_cons, List.nodup_cons] at htail ⊢
    refine ⟨?_, htail⟩
    intro hmem
    simp only [List.mem_cons] at hmem
    -- if s recurs among the chain's destinations, a non-trivial cycle at s exists
    rcases hmem with hse | hmem
    · exact hac s hs [e] (by simp) (by simpa [chainFrom] using he) (by simp [pathEnd, hse.symm])
    · simp only [List.mem_map] at hmem
      obtain ⟨e', he', hse'⟩ := hmem
      obtain ⟨l₁, l₂, rfl⟩ := List.append_of_mem he'
      have hch' : chainFrom p s ((e :: l₁) ++ [e']) := by
        have : chainFrom p s (e :: (l₁ ++ e' :: l₂)) := ⟨he, hrest⟩
        rw [show e :: (l₁ ++ e' :: l₂) = ((e :: l₁) ++ [e']) ++ l₂ by simp] at this
        exact ((chainFrom_append p s _ _).mp this).1
      refine hac s hs ((e :: l₁) ++ [e']) (by simp) hch' ?_
      simp [pathEnd_append, pathEnd, hse']

/-- On a closed, duplicate-free, acyclic universe every chain is at most
as long as the universe. -/
theorem chain_length_le {σ α : Type} {p : SearchProblem σ α} {states : List σ}
    (hcl : ClosedUnder p states) (hac : Acyclic p states) :
    ∀ (s : σ), s ∈ states → ∀ (edges : List (α × σ × Int)), chainFrom p s edges →
      edges.length ≤ states.length := by
  intro s hs edges hch
  have hnodup := chain_nodup hcl hac edges s hs hch
  have hsub : (s :: edges.map (fun e => e.2.1)) ⊆ states := by
    intro x hx
    simp only [List.mem_cons] at hx
    rcases hx with rfl | hx
    · exact hs
    · simp only [List.mem_map] at hx
      obtain ⟨e', he', rfl⟩ := hx
      obtain ⟨l₁, l₂, rfl⟩ := List.append_of_mem he'
      have : chainFrom p s (l₁ ++ e' :: l₂) := hch
      rw [chainFrom_append] at this
      have := this.2
      exact hcl.2 _ (chainFrom_pathEnd_mem hcl s l₁ hs ((chainFrom_append p s _ _).mp hch).1)
        e' this.1
  have := List.Subperm.length_le (List.subperm_of_subset hnodup hsub)
  simpa using Nat.le_of_succ_le this

/-- A successor-rank function witnesses acyclicity. -/
theorem acyclic_of_rank {σ α : Type} {p : SearchProblem σ α} {states : List σ}
    (hcl : ClosedUnder p states) (rank : σ → Nat)
    (hr : ∀ s ∈ states, ∀ e ∈ p.succAndCost s, rank e.2.1 < rank s) :
    Acyclic p states := by
  have key : ∀ (edges : List (α × σ × Int)) (s : σ), s ∈ states → edges ≠ [] →
      chainFrom p s edges → rank (pathEnd s edges) < rank s := by
    intro edges
    induction edges with
    | nil => intro s _ h; exact absurd rfl h
    | cons e rest ih =>
      intro s hs _ hch
      obtain ⟨he, hrest⟩ := hch
      have h1 : rank e.2.1 < rank s := hr s hs e he
      have hs1 : e.2.1 ∈ states := hcl.2 s hs e he
      rcases List.eq_nil_or_concat rest with rfl | _
      · simpa [pathEnd]
      · rcases rest with _ | ⟨e', rest'⟩
        · simpa [pathEnd]
        · exact lt_trans (ih e.2.1 hs1 (by simp) hrest) h1
  intro s hs edges hne hch heq
  have := key edges s hs hne hch
  rw [heq] at this
  exact lt_irrefl _ this

/-! ### Priority queue lemmas -/

theorem entryLE_refl {σ : Type} [LinearOrder σ] (e : Int × σ) : entryLE e e :=
  Or.inr ⟨rfl, le_refl _⟩

/-- Full case analysis of `PriorityQueue.update`. -/
theorem update_cases {σ : Type} [LinearOrder σ] (pq : PriorityQueue σ) (s : σ) (q : Int) :
    ((pq.update s q).1 = true ∧
      (pq.update s q).2.heap = List.orderedInsert entryLE (q, s) pq.heap ∧
      (pq.update s q).2.priorities = (fun x => if x = s then some q else pq.priorities x) ∧
      (pq.priorities s = none ∨ ∃ old, pq.priorities s = some old ∧ q < old)) ∨
    ((pq.update s q).1 = false ∧ (pq.update s q).2 = pq ∧
      ∃ old, pq.priorities s = some old ∧ old ≤ q) := by
  unfold PriorityQueue.update
  cases h : pq.priorities s with
  | none => exact Or.inl ⟨rfl, rfl, rfl, Or.inl rfl⟩
  | some old =>
    by_cases hlt : q < old
    · exact Or.inl ⟨by simp [hlt], by simp [hlt], by simp [hlt], Or.inr ⟨old, rfl, hlt⟩⟩
    · exact Or.inr ⟨by simp [hlt], by simp [hlt], old, rfl, le_of_not_lt hlt⟩

/-- Basic facts about the pop loop, independent of heap order. -/
theorem removeMinAux_basic {σ : Type} (priorities : σ → Option Int) :
    ∀ (heap rest : List (Int × σ)) (s : σ) (q : Int),
      removeMinAux priorities heap = (some (s, q), rest) →
      priorities s ≠ some DONE ∧ (q, s) ∈ heap ∧ rest.length < heap.length ∧
      (∀ e ∈ rest, e ∈ heap) ∧
      (∀ e ∈ heap, priorities e.2 ≠ some DONE → e = (q, s) ∨ e ∈ rest) := by
  intro heap
  induction heap with
  | nil => intro rest s q h; simp [removeMinAux] at h
  | cons hd tl ih =>
    intro rest s q h
    obtain ⟨pr, st⟩ := hd
    by_cases hdone : priorities st = some DONE
    · rw [removeMinAux, if_pos hdone] at h
      obtain ⟨h1, h2, h3, h4, h5⟩ := ih rest s q h
      refine ⟨h1, List.mem_cons_of_mem _ h2, by simpa using Nat.lt_succ_of_lt h3,
        fun e he => List.mem_cons_of_mem _ (h4 e he), ?_⟩
      intro e he hlive
      rcases List.mem_cons.mp he with rfl | he'
      · exact absurd hdone hlive
      · exact h5 e he' hlive
    · rw [removeMinAux, if_neg hdone] at h
      obtain ⟨h1, h2⟩ := Prod.mk.injEq .. ▸ h
      obtain ⟨rfl, rfl⟩ : s = st ∧ q = pr := by
        have := congrArg Prod.fst h
        simp at this
        exact ⟨this.1.symm, this.2.symm⟩
      have hrest : rest = tl := by
        have := congrArg Prod.snd h
        simpa using this.symm
      subst hrest
      refine ⟨hdone, by simp, by simp, fun e he => List.mem_cons_of_mem _ he, ?_⟩
      intro e he _
      rcases List.mem_cons.mp he with rfl | he'
      · exact Or.inl rfl
      · exact Or.inr he'

/-- Order facts about the pop loop on a sorted heap: the returned entry is
`entryLE`-below every live entry, and the remaining heap stays sorted. -/
theorem removeMinAux_min {σ : Type} [LinearOrder σ] (priorities : σ → Option Int) :
    ∀ (heap rest : List (Int × σ)) (s : σ) (q : Int),
      List.Pairwise entryLE heap →
      removeMinAux priorities heap = (some (s, q), rest) →
      List.Pairwise entryLE rest ∧
      (∀ e ∈ heap, priorities e.2 ≠ some DONE → entryLE (q, s) e) := by
  intro heap
  induction heap with
  | nil => intro rest s q _ h; simp [removeMinAux] at h
  | cons hd tl ih =>
    intro rest s q hp h
    obtain ⟨pr, st⟩ := hd
    have hp' := List.pairwise_cons.mp hp
    by_cases hdone : priorities st = some DONE
    · rw [removeMinAux, if_pos hdone] at h
      obtain ⟨h1, h2⟩ := ih rest s q hp'.2 h
      refine ⟨h1, ?_⟩
      intro e he hlive
      rcases List.mem_cons.mp he with rfl | he'
      · exact absurd hdone hlive
      · exact h2 e he' hlive
    · rw [removeMinAux, if_neg hdone] at h
      obtain ⟨rfl, rfl⟩ : s = st ∧ q = pr := by
        have := congrArg Prod.fst h
        simp at this
        exact ⟨this.1.symm, this.2.symm⟩
      have hrest : rest = tl := by
        have := congrArg Prod.snd h
        simpa using this.symm
      subst hrest
      refine ⟨hp'.2, ?_⟩
      intro e he _
      rcases List.mem_cons.mp he with rfl | he'
      · exact entryLE_refl _
      · exact hp'.1 e he'

/-- `removeMin` returning `none` leaves priorities unchanged; every heap
entry then carries a finalized state. -/
theorem removeMin_spec_none {σ : Type} [LinearOrder σ] {pq pq' : PriorityQueue σ}
    (h : pq.removeMin = (none, pq')) :
    pq'.priorities = pq.priorities ∧ ∀ e ∈ pq.heap, pq.priorities e.2 = some DONE := by
  have hall : ∀ (heap : List (Int × σ)) (e : Int × σ), e ∈ heap →
      pq.priorities e.2 ≠ some DONE →
      ∀ rest, removeMinAux pq.priorities heap ≠ (none, rest) := by
    intro heap
    induction heap with
    | nil => intro e habs; simp at habs
    | cons hd tl ih =>
      intro e hmem hlive rest
      obtain ⟨pr, st⟩ := hd
      by_cases hdone : pq.priorities st = some DONE
      · rw [removeMinAux, if_pos hdone]
        rcases List.mem_cons.mp hmem with rfl | hmem'
        · exact absurd hdone hlive
        · exact ih e hmem' hlive rest
      · rw [removeMinAux, if_neg hdone]
        simp
  rcases haux : removeMinAux pq.priorities pq.heap with ⟨res, heap'⟩
  rcases res with _ | ⟨s, q⟩
  · simp only [PriorityQueue.removeMin, haux] at h
    have hpq : pq' = ⟨heap', pq.priorities⟩ := by
      have := congrArg Prod.snd h
      simpa using this.symm
    refine ⟨by rw [hpq], ?_⟩
    intro e he
    by_contra hlive
    exact hall pq.heap e he hlive heap' haux
  · simp only [PriorityQueue.removeMin, haux] at h
    simp at h

/-- `removeMin` returning a state: basic facts needing no sortedness. -/
theorem removeMin_basic {σ : Type} [LinearOrder σ] {pq pq' : PriorityQueue σ}
    {s : σ} {q : Int} (h : pq.removeMin = (some (s, q), pq')) :
    pq.priorities s ≠ some DONE ∧ (q, s) ∈ pq.heap ∧
    pq'.priorities = (fun x => if x = s then some DONE else pq.priorities x) ∧
    pq'.heap.length < pq.heap.length ∧ (∀ e ∈ pq'.heap, e ∈ pq.heap) ∧
    (∀ e ∈ pq.heap, pq.priorities e.2 ≠ some DONE → e = (q, s) ∨ e ∈ pq'.heap) := by
  rcases haux : removeMinAux pq.priorities pq.heap with ⟨res, heap'⟩
  rcases res with _ | ⟨s', q'⟩
  · simp only [PriorityQueue.removeMin, haux] at h
    simp at h
  · simp only [PriorityQueue.removeMin, haux] at h
    have h1 := congrArg Prod.fst h
    have h2 := congrArg Prod.snd h
    simp only [Prod.fst, Prod.snd, Option.some.injEq, Prod.mk.injEq] at h1 h2
    obtain ⟨rfl, rfl⟩ := h1
    obtain ⟨b1, b2, b3, b4, b5⟩ := removeMinAux_basic pq.priorities pq.heap heap' _ _ haux
    have hheap : pq'.heap = heap' := by rw [← h2]
    refine ⟨b1, b2, by rw [← h2], ?_, ?_, ?_⟩
    · rw [hheap]; exact b3
    · rw [hheap]; exact b4
    · rw [hheap]; exact b5

theorem entryLE_fst_le {σ : Type} [LinearOrder σ] {e₁ e₂ : Int × σ}
    (h : entryLE e₁ e₂) : e₁.1 ≤ e₂.1 := by
  rcases h with h | ⟨h, _⟩
  · exact le_of_lt h
  · exact le_of_eq h

/-- `removeMin` returning a state on a sorted, covered, present heap:
the returned priority is the state's stored priority, it is a live
minimum, and presence of live entries survives the pop. -/
theorem removeMin_min {σ : Type} [LinearOrder σ] {pq pq' : PriorityQueue σ}
    {s : σ} {q : Int}
    (hsorted : List.Pairwise entryLE pq.heap)
    (hcov : ∀ e ∈ pq.heap, ∃ q', pq.priorities e.2 = some q' ∧ (q' ≠ DONE → q' ≤ e.1))
    (hpres : ∀ s' q', pq.priorities s' = some q' → q' ≠ DONE → (q', s') ∈ pq.heap)
    (h : pq.removeMin = (some (s, q), pq')) :
    pq.priorities s = some q ∧ q ≠ DONE ∧
    List.Pairwise entryLE pq'.heap ∧
    (∀ s' q', pq.priorities s' = some q' → q' ≠ DONE → s' ≠ s → (q', s') ∈ pq'.heap) ∧
    (∀ s' q', pq.priorities s' = some q' → q' ≠ DONE → q ≤ q') := by
  obtain ⟨b1, b2, b3, _, _, b6⟩ := removeMin_basic h
  have hmin : ∀ e ∈ pq.heap, pq.priorities e.2 ≠ some DONE → entryLE (q, s) e := by
    rcases haux : removeMinAux pq.priorities pq.heap with ⟨res, heap'⟩
    rcases res with _ | ⟨s', q'⟩
    · simp only [PriorityQueue.removeMin, haux] at h
      simp at h
    · simp only [PriorityQueue.removeMin, haux] at h
      have h1 := congrArg Prod.fst h
      simp only [Prod.fst, Option.some.injEq, Prod.mk.injEq] at h1
      obtain ⟨rfl, rfl⟩ := h1
      exact (removeMinAux_min pq.priorities pq.heap heap' _ _ hsorted haux).2
  have hpairwise' : List.Pairwise entryLE pq'.heap := by
    rcases haux : removeMinAux pq.priorities pq.heap with ⟨res, heap'⟩
    rcases res with _ | ⟨s', q'⟩
    · simp only [PriorityQueue.removeMin, haux] at h
      simp at h
    · simp only [PriorityQueue.removeMin, haux] at h
      have h2 := congrArg Prod.snd h
      simp only [Prod.snd] at h2
      rw [← h2]
      exact (removeMinAux_min pq.priorities pq.heap heap' _ _ hsorted haux).1
  obtain ⟨q'', hq'', himp⟩ := hcov (q, s) b2
  have hq''ne : q'' ≠ DONE := by
    intro habs
    exact b1 (habs ▸ hq'')
  have hle1 : q'' ≤ q := himp hq''ne
  have hle2 : q ≤ q'' := by
    have := hmin (q'', s) (hpres s q'' hq'' hq''ne) (by rw [hq'']; simpa using hq''ne)
    exact entryLE_fst_le this
  have hqq : q'' = q := le_antisymm hle1 hle2
  subst hqq
  refine ⟨hq'', hq''ne, hpairwise', ?_, ?_⟩
  · intro s' q' hp hlive hne
    have hm := hpres s' q' hp hlive
    rcases b6 (q', s') hm (by rw [hp]; simpa using hlive) with heq | hin
    · exact absurd (congrArg Prod.snd heq) hne
    · exact hin
  · intro s' q' hp hlive
    exact entryLE_fst_le (hmin (q', s') (hpres s' q' hp hlive) (by rw [hp]; simpa using hlive))

theorem DONE_neg : DONE < 0 := by decide

/-- As long as every priority handed to `update` exceeds the `DONE`
sentinel, the states returned by `removeMin` never repeat, and none of
them was finalized at the start of the run. -/
theorem runOps_no_repeat {σ : Type} [LinearOrder σ] :
    ∀ (ops : List (PQOp σ)) (pq : PriorityQueue σ),
      (∀ s q, PQOp.update s q ∈ ops → DONE < q) →
      (removedStates ops pq).Nodup ∧
      (∀ s ∈ removedStates ops pq, pq.priorities s ≠ some DONE) := by
  intro ops
  induction ops with
  | nil =>
    intro pq _
    simp [removedStates, runOps]
  | cons op rest ih =>
    intro pq hops
    cases op with
    | update s q =>
      have hq : DONE < q := hops s q (List.mem_cons_self _ _)
      have hrest : ∀ s' q', PQOp.update s' q' ∈ rest → DONE < q' :=
        fun s' q' h => hops s' q' (List.mem_cons_of_mem _ h)
      have hrw : removedStates (PQOp.update s q :: rest) pq =
          removedStates rest (pq.update s q).2 := by
        simp [removedStates, runOps]
      obtain ⟨ih1, ih2⟩ := ih (pq.update s q).2 hrest
      rw [hrw]
      refine ⟨ih1, ?_⟩
      intro s' hs' habs
      apply ih2 s' hs'
      rcases update_cases pq s q with ⟨_, _, hpri, hcond⟩ | ⟨_, heq, _⟩
      · rw [hpri]
        by_cases hss : s' = s
        · subst hss
          rcases hcond with hnone | ⟨old, hold, hlt⟩
          · rw [hnone] at habs
            exact absurd habs (by simp)
          · rw [hold] at habs
            have : old = DONE := by simpa using habs
            subst this
            exact absurd hlt (not_lt_of_gt hq)
        · simpa [hss] using habs
      · rw [heq]
        exact habs
    | removeMin =>
      have hrest : ∀ s' q', PQOp.update s' q' ∈ rest → DONE < q' :=
        fun s' q' h => hops s' q' (List.mem_cons_of_mem _ h)
      rcases hrm : pq.removeMin with ⟨res, pq'⟩
      obtain ⟨ih1, ih2⟩ := ih pq' hrest
      rcases hrun : runOps rest pq' with ⟨results, pq''⟩
      have hrw : removedStates (PQOp.removeMin :: rest) pq =
          (res.map Prod.fst).toList ++ removedStates rest pq' := by
        cases res with
        | none => simp [removedStates, runOps, hrm, hrun]
        | some pr => simp [removedStates, runOps, hrm, hrun]
      rcases res with _ | ⟨s0, q0⟩
      · obtain ⟨hpri, _⟩ := removeMin_spec_none hrm
        rw [hrw]
        show (removedStates rest pq').Nodup ∧
          ∀ s' ∈ removedStates rest pq', pq.priorities s' ≠ some DONE
        refine ⟨ih1, ?_⟩
        intro s' hs'
        rw [← hpri]
        exact ih2 s' hs'
      · obtain ⟨b1, _, b3, _⟩ := removeMin_basic hrm
        rw [hrw]
        show (s0 :: removedStates rest pq').Nodup ∧
          ∀ s' ∈ s0 :: removedStates rest pq', pq.priorities s' ≠ some DONE
        rw [List.nodup_cons]
        have hdone' : pq'.priorities s0 = some DONE := by
          rw [b3]
          simp
        refine ⟨⟨?_, ih1⟩, ?_⟩
        · intro habs
          exact ih2 s0 habs hdone'
        · intro s' hs'
          rcases List.mem_cons.mp hs' with rfl | hs''
          · exact b1
          · intro habs
            apply ih2 s' hs''
            rw [b3]
            by_cases hss : s' = s0
            · simp [hss]
            · simpa [hss] using habs

/-! ### Depth-first search lemmas -/

theorem dfsRecurse_succ {σ α : Type} (p : SearchProblem σ α) (fuel : Nat) (state : σ)
    (pastCost : Int) (history : List (α × σ × Int)) (st : DFSState σ α) :
    dfsRecurse p (fuel + 1) state pastCost history st =
      (if st.solution.isSome then some st
       else if p.isGoal state then
        some { st with
          numStatesExplored := st.numStatesExplored + 1,
          solution := some state,
          actions := some (history.map (fun e => e.1)),
          totalCost := some pastCost }
       else
        (p.succAndCost state).foldlM
          (fun st' e =>
            dfsRecurse p fuel e.2.1 (pastCost + e.2.2) (history ++ [e]) st')
          { st with
            numStatesExplored := st.numStatesExplored + 1,
            size := st.size + (p.succAndCost state).length }) := rfl

/-- Result-shape facts: the explored counter never decreases, a recorded
solution freezes the state, and while no solution is recorded the
`actions`/`totalCost` fields stay untouched. -/
theorem dfsRecurse_shape {σ α : Type} (p : SearchProblem σ α) :
    ∀ (fuel : Nat) (state : σ) (pastCost : Int) (history : List (α × σ × Int))
      (st st' : DFSState σ α),
      dfsRecurse p fuel state pastCost history st = some st' →
      st.numStatesExplored ≤ st'.numStatesExplored ∧
      (st.solution.isSome → st' = st) ∧
      (st'.solution = none →
        st'.actions = st.actions ∧ st'.totalCost = st.totalCost ∧ st.solution = none) := by
  intro fuel
  induction fuel with
  | zero => intro state pc hist st st' h; simp [dfsRecurse] at h
  | succ fuel ih =>
    have hfold : ∀ (state : σ) (pc : Int) (hist : List (α × σ × Int))
        (l : List (α × σ × Int)) (st st' : DFSState σ α),
        l.foldlM (fun st' e =>
          dfsRecurse p fuel e.2.1 (pc + e.2.2) (hist ++ [e]) st') st = some st' →
        st.numStatesExplored ≤ st'.numStatesExplored ∧
        (st.solution.isSome → st' = st) ∧
        (st'.solution = none →
          st'.actions = st.actions ∧ st'.totalCost = st.totalCost ∧ st.solution = none) := by
      intro state pc hist l
      induction l with
      | nil =>
        intro st st' h
        simp only [List.foldlM_nil] at h
        cases h
        exact ⟨le_refl _, fun _ => rfl, fun _ => ⟨rfl, rfl, by assumption⟩⟩
      | cons e l ihl =>
        intro st st' h
        simp only [List.foldlM_cons] at h
        rcases Option.bind_eq_some.mp h with ⟨mid, hmid, hrest⟩
        obtain ⟨m1, m2, m3⟩ := ih e.2.1 (pc + e.2.2) (hist ++ [e]) st mid hmid
        obtain ⟨r1, r2, r3⟩ := ihl mid st' hrest
        refine ⟨le_trans m1 r1, ?_, ?_⟩
        · intro hsome
          have hm : mid = st := m2 hsome
          subst hm
          exact r2 hsome
        · intro hnone
          obtain ⟨a1, a2, a3⟩ := r3 hnone
          obtain ⟨b1, b2, b3⟩ := m3 a3
          exact ⟨a1.trans b1, a2.trans b2, b3⟩
    intro state pc hist st st' h
    rw [dfsRecurse_succ] at h
    by_cases hsol : st.solution.isSome
    · rw [if_pos hsol] at h
      cases h
      exact ⟨le_refl _, fun _ => rfl, fun hn => ⟨rfl, rfl, hn⟩⟩
    · rw [if_neg hsol] at h
      by_cases hgoal : p.isGoal state
      · rw [if_pos hgoal] at h
        cases h
        refine ⟨by simp, fun habs => absurd habs hsol, ?_⟩
        intro hnone
        simp at hnone
      · rw [if_neg hgoal] at h
        obtain ⟨f1, f2, f3⟩ := hfold state pc hist (p.succAndCost state) _ st' h
        refine ⟨le_trans (by simp) f1, fun habs => absurd habs hsol, ?_⟩
        intro hnone
        obtain ⟨a1, a2, a3⟩ := f3 hnone
        exact ⟨a1, a2, by simpa using a3⟩

/-- After a solution is recorded, the whole remaining successor loop is a
no-op. -/
theorem dfsFold_frozen {σ α : Type} (p : SearchProblem σ α) (fuel : Nat) (pc : Int)
    (hist : List (α × σ × Int)) :
    ∀ (l : List (α × σ × Int)) (st st' : DFSState σ α), st.solution.isSome →
      l.foldlM (fun st' e =>
        dfsRecurse p fuel e.2.1 (pc + e.2.2) (hist ++ [e]) st') st = some st' →
      st' = st := by
  intro l
  induction l with
  | nil =>
    intro st st' _ h
    simp only [List.foldlM_nil] at h
    exact (Option.some.injEq .. ▸ h).symm
  | cons e l ihl =>
    intro st st' hsome h
    simp only [List.foldlM_cons] at h
    rcases Option.bind_eq_some.mp h with ⟨mid, hmid, hrest⟩
    have : mid = st := (dfsRecurse_shape p fuel e.2.1 (pc + e.2.2) (hist ++ [e]) st mid hmid).2.1 hsome
    subst this
    exact ihl mid st' hsome hrest

/-- Soundness: when a run that starts without a recorded solution ends
with one, the recorded fields describe a valid goal path extending the
current history. -/
theorem dfsRecurse_sound {σ α : Type} (p : SearchProblem σ α) :
    ∀ (fuel : Nat) (state : σ) (pc : Int) (hist : List (α × σ × Int))
      (st st' : DFSState σ α),
      dfsRecurse p fuel state pc hist st = some st' → st.solution = none →
      st'.solution.isSome →
      ∃ edges, chainFrom p state edges ∧ p.isGoal (pathEnd state edges) = true ∧
        st'.actions = some ((hist ++ edges).map (fun e => e.1)) ∧
        st'.totalCost = some (pc + costSum edges) := by
  intro fuel
  induction fuel with
  | zero => intro state pc hist st st' h; simp [dfsRecurse] at h
  | succ fuel ih =>
    have hfold : ∀ (state : σ) (pc : Int) (hist : List (α × σ × Int))
        (l : List (α × σ × Int)), (∀ e ∈ l, e ∈ p.succAndCost state) →
        ∀ (st st' : DFSState σ α),
        l.foldlM (fun st' e =>
          dfsRecurse p fuel e.2.1 (pc + e.2.2) (hist ++ [e]) st') st = some st' →
        st.solution = none → st'.solution.isSome →
        ∃ e edges, e ∈ p.succAndCost state ∧ chainFrom p e.2.1 edges ∧
          p.isGoal (pathEnd e.2.1 edges) = true ∧
          st'.actions = some (((hist ++ [e]) ++ edges).map (fun e => e.1)) ∧
          st'.totalCost = some ((pc + e.2.2) + costSum edges) := by
      intro state pc hist l hmem
      induction l with
      | nil =>
        intro st st' h hnone hsome
        simp only [List.foldlM_nil] at h
        cases h
        rw [hnone] at hsome
        simp at hsome
      | cons e l ihl =>
        intro st st' h hnone hsome
        simp only [List.foldlM_cons] at h
        rcases Option.bind_eq_some.mp h with ⟨mid, hmid, hrest⟩
        by_cases hmidsol : mid.solution.isSome
        · have hst' : st' = mid := dfsFold_frozen p fuel pc hist l mid st' hmidsol hrest
          subst hst'
          obtain ⟨edges, h1, h2, h3, h4⟩ :=
            ih e.2.1 (pc + e.2.2) (hist ++ [e]) st st' hmid hnone hmidsol
          exact ⟨e, edges, hmem e (List.mem_cons_self _ _), h1, h2, h3, h4⟩
        · have hmidnone : mid.solution = none := Option.not_isSome_iff_eq_none.mp hmidsol
          obtain ⟨e', hrest'⟩ := ihl (fun x hx => hmem x (List.mem_cons_of_mem _ hx))
            mid st' hrest hmidnone hsome
          exact ⟨e', hrest'⟩
    intro state pc hist st st' h hnone hsome
    rw [dfsRecurse_succ] at h
    rw [hnone] at h
    simp only [Option.isSome_none, Bool.false_eq_true, if_false] at h
    by_cases hgoal : p.isGoal state
    · rw [if_pos hgoal] at h
      cases h
      refine ⟨[], trivial, ?_, ?_, ?_⟩
      · simpa [pathEnd] using hgoal
      · simp
      · simp [costSum]
    · rw [if_neg hgoal] at h
      obtain ⟨e, edges, h1, h2, h3, h4, h5⟩ :=
        hfold state pc hist (p.succAndCost state) (fun x hx => hx) _ st' h (by simp) hsome
      refine ⟨e :: edges, ⟨h1, h2⟩, ?_, ?_, ?_⟩
      · simpa [pathEnd] using h3
      · simpa using h4
      · rw [costSum_cons]
        rw [h5]
        ring_nf

/-- Termination and completeness: when every chain from `state` has at
most `k` edges, a call with more than `k` fuel returns, and finds a
solution whenever one is reachable and none was recorded yet. -/
theorem dfsRecurse_term {σ α : Type} (p : SearchProblem σ α) (states : List σ)
    (hcl : ClosedUnder p states) :
    ∀ (k fuel : Nat) (state : σ) (pc : Int) (hist : List (α × σ × Int))
      (st : DFSState σ α), state ∈ states →
      (∀ edges, chainFrom p state edges → edges.length ≤ k) →
      k + 1 ≤ fuel →
      ∃ st', dfsRecurse p fuel state pc hist st = some st' ∧
        (st.solution = none →
          (∃ edges, chainFrom p state edges ∧ p.isGoal (pathEnd state edges) = true) →
          st'.solution.isSome) := by
  intro k
  induction k with
  | zero =>
    intro fuel state pc hist st hstate hbound hfuel
    obtain ⟨fuel, rfl⟩ : ∃ f, fuel = f + 1 := ⟨fuel - 1, by omega⟩
    have hsucc : p.succAndCost state = [] := by
      cases hs : p.succAndCost state with
      | nil => rfl
      | cons e l =>
        have : chainFrom p state [e] := ⟨by rw [hs]; exact List.mem_cons_self _ _, trivial⟩
        have := hbound [e] this
        simp at this
    rw [dfsRecurse_succ]
    by_cases hsol : st.solution.isSome
    · rw [if_pos hsol]
      exact ⟨st, rfl, fun hn => by rw [hn] at hsol; simp at hsol⟩
    · rw [if_neg hsol]
      by_cases hgoal : p.isGoal state
      · rw [if_pos hgoal]
        exact ⟨_, rfl, fun _ _ => by simp⟩
      · rw [if_neg hgoal]
        rw [hsucc]
        refine ⟨_, rfl, ?_⟩
        intro _ ⟨edges, hch, hgl⟩
        cases edges with
        | nil => exact absurd hgl (by simpa [pathEnd] using hgoal)
        | cons e l =>
          have : e ∈ p.succAndCost state := hch.1
          rw [hsucc] at this
          simp at this
  | succ k ih =>
    intro fuel state pc hist st hstate hbound hfuel
    obtain ⟨fuel, rfl⟩ : ∃ f, fuel = f + 1 := ⟨fuel - 1, by omega⟩
    rw [dfsRecurse_succ]
    by_cases hsol : st.solution.isSome
    · rw [if_pos hsol]
      exact ⟨st, rfl, fun hn => by rw [hn] at hsol; simp at hsol⟩
    · rw [if_neg hsol]
      by_cases hgoal : p.isGoal state
      · rw [if_pos hgoal]
        exact ⟨_, rfl, fun _ _ => by simp⟩
      · rw [if_neg hgoal]
        have hchild : ∀ e ∈ p.succAndCost state,
            e.2.1 ∈ states ∧ (∀ edges, chainFrom p e.2.1 edges → edges.length ≤ k) := by
          intro e he
          refine ⟨hcl.2 state hstate e he, ?_⟩
          intro edges hch
          have : chainFrom p state (e :: edges) := ⟨he, hch⟩
          have := hbound (e :: edges) this
          simpa using Nat.lt_succ_iff.mp (Nat.lt_of_lt_of_le (Nat.lt_succ_self _) this)
        have hfold : ∀ (l : List (α × σ × Int)), (∀ e ∈ l, e ∈ p.succAndCost state) →
            ∀ (st₀ : DFSState σ α),
            ∃ st', l.foldlM (fun st' e =>
                dfsRecurse p fuel e.2.1 (pc + e.2.2) (hist ++ [e]) st') st₀ = some st' ∧
              (st₀.solution.isSome → st'.solution.isSome) ∧
              (st₀.solution = none →
                (∃ e ∈ l, ∃ edges, chainFrom p e.2.1 edges ∧
                  p.isGoal (pathEnd e.2.1 edges) = true) →
                st'.solution.isSome) := by
          intro l
          induction l with
          | nil =>
            intro _ st₀
            refine ⟨st₀, by simp [List.foldlM_nil], fun h => h, ?_⟩
            intro _ habs
            simp at habs
          | cons e l ihl =>
            intro hmem st₀
            obtain ⟨he2, hb2⟩ := hchild e (hmem e (List.mem_cons_self _ _))
            obtain ⟨mid, hmid, hfind⟩ :=
              ih fuel e.2.1 (pc + e.2.2) (hist ++ [e]) st₀ he2 hb2 (by omega)
            obtain ⟨st', hst', hpers, hfind'⟩ :=
              ihl (fun x hx => hmem x (List.mem_cons_of_mem _ hx)) mid
            refine ⟨st', ?_, ?_, ?_⟩
            · simp only [List.foldlM_cons]
              rw [hmid]
              exact hst'
            · intro hs
              have : mid = st₀ :=
                (dfsRecurse_shape p fuel e.2.1 (pc + e.2.2) (hist ++ [e]) st₀ mid hmid).2.1 hs
              exact hpers (this ▸ hs)
            · intro hnone hex
              obtain ⟨e', he', edges, hch, hgl⟩ := hex
              rcases List.mem_cons.mp he' with rfl | he''
              · exact hpers (hfind hnone ⟨edges, hch, hgl⟩)
              · by_cases hmidsol : mid.solution.isSome
                · exact hpers hmidsol
                · exact hfind' (Option.not_isSome_iff_eq_none.mp hmidsol)
                    ⟨e', he'', edges, hch, hgl⟩
        obtain ⟨st', hst', _, hfind⟩ := hfold (p.succAndCost state) (fun x hx => hx)
          { st with
            numStatesExplored := st.numStatesExplored + 1,
            size := st.size + (p.succAndCost state).length }
        refine ⟨st', hst', ?_⟩
        intro hnone hex
        obtain ⟨edges, hch, hgl⟩ := hex
        cases edges with
        | nil => exact absurd hgl (by simpa [pathEnd] using hgoal)
        | cons e l =>
          exact hfind (by simpa using hnone) ⟨e, hch.1, l, hch.2, by simpa [pathEnd] using hgl⟩

/-- The depth-first recursion started at the self-looping state of
`cycleProblem` never returns, whatever the fuel. -/
theorem dfsRecurse_cycle_none :
    ∀ (fuel : Nat) (pc : Int) (hist : List (Nat × Nat × Int)) (st : DFSState Nat Nat),
      st.solution = none → dfsRecurse cycleProblem fuel 0 pc hist st = none := by
  intro fuel
  induction fuel with
  | zero => intro pc hist st _; rfl
  | succ fuel ih =>
    intro pc hist st hnone
    rw [dfsRecurse_succ]
    rw [hnone]
    have hgoal : cycleProblem.isGoal 0 = false := rfl
    have hsucc : cycleProblem.succAndCost 0 = [(5, 0, 1), (6, 1, 1)] := rfl
    simp only [Option.isSome_none, Bool.false_eq_true, if_false, hgoal, hsucc]
    rw [List.foldlM_cons]
    rw [ih (pc + 1) (hist ++ [(5, 0, 1)]) _ (by simp [hnone])]
    rfl

/-! ### Dynamic-programming lemmas -/

theorem tupleLT_fst_le {σ α : Type} [LinearOrder σ] [LinearOrder α]
    {x y : Int × α × σ × Int} (h : tupleLT x y) : x.1 ≤ y.1 := by
  rcases h with h | ⟨h, _⟩
  · exact le_of_lt h
  · exact le_of_eq h

theorem not_tupleLT_fst_le {σ α : Type} [LinearOrder σ] [LinearOrder α]
    {x y : Int × α × σ × Int} (h : ¬ tupleLT x y) : y.1 ≤ x.1 := by
  by_contra habs
  exact h (Or.inl (lt_of_not_le habs))

/-- `tupleMin` returns a member whose first component is minimal. -/
theorem tupleMin_spec {σ α : Type} [LinearOrder σ] [LinearOrder α]
    {l : List (Int × α × σ × Int)} {m : Int × α × σ × Int}
    (h : tupleMin l = some m) : m ∈ l ∧ ∀ y ∈ l, m.1 ≤ y.1 := by
  have key : ∀ (xs : List (Int × α × σ × Int)) (b : Int × α × σ × Int),
      (xs.foldl (fun best y => if tupleLT y best then y else best) b) ∈ b :: xs ∧
      (xs.foldl (fun best y => if tupleLT y best then y else best) b).1 ≤ b.1 ∧
      ∀ y ∈ xs, (xs.foldl (fun best y => if tupleLT y best then y else best) b).1 ≤ y.1 := by
    intro xs
    induction xs with
    | nil => intro b; exact ⟨List.mem_cons_self _ _, le_refl _, by simp⟩
    | cons y xs ihx =>
      intro b
      simp only [List.foldl_cons]
      obtain ⟨hmem, hle, hall⟩ := ihx (if tupleLT y b then y else b)
      have hb : (if tupleLT y b then y else b).1 ≤ b.1 := by
        split_ifs with hc
        · exact tupleLT_fst_le hc
        · exact le_refl _
      have hy : (if tupleLT y b then y else b).1 ≤ y.1 := by
        split_ifs with hc
        · exact le_refl _
        · exact not_tupleLT_fst_le hc
      refine ⟨?_, le_trans hle hb, ?_⟩
      · rcases List.mem_cons.mp hmem with heq | hmem'
        · rw [heq]
          split_ifs with hc
          · exact List.mem_cons_of_mem _ (List.mem_cons_self _ _)
          · exact List.mem_cons_self _ _
        · exact List.mem_cons_of_mem _ (List.mem_cons_of_mem _ hmem')
      · intro z hz
        rcases List.mem_cons.mp hz with rfl | hz'
        · exact le_trans hle hy
        · exact hall z hz'
  cases l with
  | nil => simp [tupleMin] at h
  | cons x xs =>
    simp only [tupleMin, Option.some.injEq] at h
    subst h
    obtain ⟨hmem, hle, hall⟩ := key xs x
    refine ⟨hmem, ?_⟩
    intro y hy
    rcases List.mem_cons.mp hy with rfl | hy'
    · exact hle
    · exact hall y hy'

theorem dpRecurse_goal {σ α : Type} [LinearOrder σ] [LinearOrder α]
    (p : SearchProblem σ α) (fuel : Nat) (state : σ) (cache : DPCache σ α)
    (h : p.isGoal state = true) :
    dpRecurse p (fuel + 1) state cache = some (Except.ok (0, cache)) := by
  rw [dpRecurse, if_pos h]

theorem dpRecurse_hit {σ α : Type} [LinearOrder σ] [LinearOrder α]
    (p : SearchProblem σ α) (fuel : Nat) (state : σ) (cache : DPCache σ α)
    (v : Int × α × σ × Int) (h : p.isGoal state = false) (hv : cache state = some v) :
    dpRecurse p (fuel + 1) state cache = some (Except.ok (v.1, cache)) := by
  rw [dpRecurse, if_neg (by simp [h]), hv]

theorem dpRecurse_miss {σ α : Type} [LinearOrder σ] [LinearOrder α]
    (p : SearchProblem σ α) (fuel : Nat) (state : σ) (cache : DPCache σ α)
    (h : p.isGoal state = false) (hm : cache state = none) :
    dpRecurse p (fuel + 1) state cache =
      (match
        (p.succAndCost state).foldl
          (dpFoldStep (fun s c => dpRecurse p fuel s c))
          (some (Except.ok (([], cache) : List (Int × α × σ × Int) × DPCache σ α)))
      with
      | none => none
      | some (Except.error u) => some (Except.error u)
      | some (Except.ok (tuples, cache')) =>
        match tupleMin tuples with
        | none => some (Except.error ())
        | some m =>
          some (Except.ok (m.1, fun x => if x = state then some m else cache' x))) := by
  rw [dpRecurse, if_neg (by simp [h]), hm]

/-- Memoized future-cost computation is correct: on a universe where
chains from `state` are bounded, all costs non-negative, and every state
can reach a goal, `dpRecurse` returns the least future cost and leaves a
well-formed, extended cache. -/
theorem dpRecurse_correct {σ α : Type} [LinearOrder σ] [LinearOrder α]
    (p : SearchProblem σ α) (states : List σ) (hcl : ClosedUnder p states)
    (hnn : NonnegCosts p)
    (hreach : ∀ s ∈ states, ∃ c, c ∈ futureCosts p s) :
    ∀ (k fuel : Nat) (state : σ) (cache : DPCache σ α), state ∈ states →
      (∀ edges, chainFrom p state edges → edges.length ≤ k) →
      k + 1 ≤ fuel → CacheOK p cache →
      ∃ f cache', dpRecurse p fuel state cache = some (Except.ok (f, cache')) ∧
        CacheOK p cache' ∧ (∀ s v, cache s = some v → cache' s = some v) ∧
        IsLeast (futureCosts p state) f ∧
        (p.isGoal state = false → cache' state ≠ none) := by
  intro k
  induction k with
  | zero =>
    intro fuel state cache hstate hbound hfuel hok
    obtain ⟨fuel, rfl⟩ : ∃ f, fuel = f + 1 := ⟨fuel - 1, by omega⟩
    by_cases hgoal : p.isGoal state = true
    · refine ⟨0, cache, dpRecurse_goal p fuel state cache hgoal, hok, fun _ _ h => h, ?_, ?_⟩
      · refine ⟨⟨[], trivial, by simpa [pathEnd] using hgoal, rfl⟩, ?_⟩
        intro c hc
        obtain ⟨edges, hch, _, hcost⟩ := hc
        exact hcost ▸ chainFrom_costSum_nonneg hnn _ edges hch
      · intro habs
        rw [habs] at hgoal
        simp at hgoal
    · exfalso
      obtain ⟨c, edges, hch, hgl, _⟩ := hreach state hstate
      cases edges with
      | nil => exact hgoal (by simpa [pathEnd] using hgl)
      | cons e l =>
        have := hbound (e :: l) hch
        simp at this
  | succ k ih =>
    intro fuel state cache hstate hbound hfuel hok
    obtain ⟨fuel, rfl⟩ : ∃ f, fuel = f + 1 := ⟨fuel - 1, by omega⟩
    by_cases hgoal : p.isGoal state = true
    · refine ⟨0, cache, dpRecurse_goal p fuel state cache hgoal, hok, fun _ _ h => h, ?_, ?_⟩
      · refine ⟨⟨[], trivial, by simpa [pathEnd] using hgoal, rfl⟩, ?_⟩
        intro c hc
        obtain ⟨edges, hch, _, hcost⟩ := hc
        exact hcost ▸ chainFrom_costSum_nonneg hnn _ edges hch
      · intro habs
        rw [habs] at hgoal
        simp at hgoal
    · have hgoal' : p.isGoal state = false := by
        cases h : p.isGoal state
        · rfl
        · exact absurd h hgoal
      cases hhit : cache state with
      | some v =>
        obtain ⟨h1, h2, h3, h4⟩ := hok state v hhit
        exact ⟨v.1, cache, dpRecurse_hit p fuel state cache v hgoal' hhit, hok,
          fun _ _ h => h, h3, fun _ => by rw [hhit]; simp⟩
      | none =>
        have hchild : ∀ e ∈ p.succAndCost state,
            e.2.1 ∈ states ∧ (∀ edges, chainFrom p e.2.1 edges → edges.length ≤ k) := by
          intro e he
          refine ⟨hcl.2 state hstate e he, ?_⟩
          intro edges hch
          have := hbound (e :: edges) ⟨he, hch⟩
          simpa using Nat.lt_succ_iff.mp (Nat.lt_of_lt_of_le (Nat.lt_succ_self _) this)
        -- the fold over the successor list
        have hfold : ∀ (l : List (α × σ × Int)), (∀ e ∈ l, e ∈ p.succAndCost state) →
            ∀ (tuples : List (Int × α × σ × Int)) (cache₀ : DPCache σ α), CacheOK p cache₀ →
            ∃ newpart cache',
              l.foldl (dpFoldStep (fun s c => dpRecurse p fuel s c))
                (some (Except.ok (tuples, cache₀))) =
                some (Except.ok (tuples ++ newpart, cache')) ∧
              CacheOK p cache' ∧ (∀ s v, cache₀ s = some v → cache' s = some v) ∧
              (∀ t ∈ newpart, ∃ e fe, e ∈ p.succAndCost state ∧
                IsLeast (futureCosts p e.2.1) fe ∧
                t = (e.2.2 + fe, e.1, e.2.1, e.2.2)) ∧
              (∀ e ∈ l, ∃ fe, IsLeast (futureCosts p e.2.1) fe ∧
                (e.2.2 + fe, e.1, e.2.1, e.2.2) ∈ newpart) ∧
              (∀ e ∈ l, p.isGoal e.2.1 = true ∨ cache' e.2.1 ≠ none) := by
          intro l
          induction l with
          | nil =>
            intro _ tuples cache₀ hok₀
            refine ⟨[], cache₀, by simp, hok₀, fun _ _ h => h, by simp, by simp, by simp⟩
          | cons e l ihl =>
            intro hmem tuples cache₀ hok₀
            obtain ⟨he2, hb2⟩ := hchild e (hmem e (List.mem_cons_self _ _))
            obtain ⟨fe, cache₁, hrun, hok₁, hext₁, hleast₁, hcached₁⟩ :=
              ih fuel e.2.1 cache₀ he2 hb2 (by omega) hok₀
            obtain ⟨newpart, cache', hfold', hok', hext', hpart', hall', hcl'⟩ :=
              ihl (fun x hx => hmem x (List.mem_cons_of_mem _ hx))
                (tuples ++ [(e.2.2 + fe, e.1, e.2.1, e.2.2)]) cache₁ hok₁
            refine ⟨(e.2.2 + fe, e.1, e.2.1, e.2.2) :: newpart, cache', ?_, hok', ?_, ?_, ?_, ?_⟩
            · simp only [List.foldl_cons]
              have hstep : dpFoldStep (fun s c => dpRecurse p fuel s c)
                  (some (Except.ok (tuples, cache₀))) e =
                  some (Except.ok (tuples ++ [(e.2.2 + fe, e.1, e.2.1, e.2.2)], cache₁)) := by
                simp only [dpFoldStep, hrun]
              rw [hstep, hfold']
              simp
            · exact fun s v h => hext' s v (hext₁ s v h)
            · intro t ht
              rcases List.mem_cons.mp ht with rfl | ht'
              · exact ⟨e, fe, hmem e (List.mem_cons_self _ _), hleast₁, rfl⟩
              · exact hpart' t ht'
            · intro e' he'
              rcases List.mem_cons.mp he' with rfl | he''
              · exact ⟨fe, hleast₁, List.mem_cons_self _ _⟩
              · obtain ⟨fe', h1, h2⟩ := hall' e' he''
                exact ⟨fe', h1, List.mem_cons_of_mem _ h2⟩
            · intro e' he'
              rcases List.mem_cons.mp he' with rfl | he''
              · by_cases hg : p.isGoal e'.2.1 = true
                · exact Or.inl hg
                · right
                  have : cache₁ e'.2.1 ≠ none := hcached₁ (by
                    cases h : p.isGoal e'.2.1
                    · rfl
                    · exact absurd h hg)
                  cases h : cache₁ e'.2.1 with
                  | none => exact absurd h this
                  | some v => rw [hext' _ v h]; simp
              · exact hcl' e' he''
        obtain ⟨newpart, cache', hfold', hok', hext', hpart', hall', hclosed'⟩ :=
          hfold (p.succAndCost state) (fun x hx => hx) [] cache hok
        -- the successor list is non-empty, hence so is the tuple list
        obtain ⟨c₀, edges₀, hch₀, hgl₀, _⟩ := hreach state hstate
        have hne : p.succAndCost state ≠ [] := by
          cases edges₀ with
          | nil => exact absurd (by simpa [pathEnd] using hgl₀) (by simpa using hgoal')
          | cons e l =>
            intro habs
            have hmem0 := hch₀.1
            rw [habs] at hmem0
            simp at hmem0
        have hnewne : newpart ≠ [] := by
          intro habs
          rw [habs] at hall'
          cases hsc : p.succAndCost state with
          | nil => exact hne hsc
          | cons e l =>
            obtain ⟨fe, _, h2⟩ := hall' e (by rw [hsc]; exact List.mem_cons_self _ _)
            simp at h2
        rcases hmin : tupleMin newpart with _ | m
        · exfalso
          cases newpart with
          | nil => exact hnewne rfl
          | cons t ts => simp [tupleMin] at hmin
        · obtain ⟨hmmem, hmmin⟩ := tupleMin_spec hmin
          obtain ⟨em, fm, hem, hfm, hteq⟩ := hpart' m hmmem
          have hleast : IsLeast (futureCosts p state) m.1 := by
            constructor
            · obtain ⟨edgesm, hchm, hglm, hcostm⟩ := hfm.1
              refine ⟨em :: edgesm, ⟨hem, hchm⟩, by simpa [pathEnd] using hglm, ?_⟩
              rw [costSum_cons, hcostm, hteq]
            · intro c hc
              obtain ⟨edges, hch, hgl, hcost⟩ := hc
              cases edges with
              | nil => exact absurd (by simpa [pathEnd] using hgl) (by simpa using hgoal')
              | cons e l =>
                obtain ⟨fe, hfe, htmem⟩ := hall' e hch.1
                have h1 : m.1 ≤ e.2.2 + fe := by
                  have := hmmin _ htmem
                  simpa using this
                have h2 : fe ≤ costSum l := hfe.2 ⟨l, hch.2, by simpa [pathEnd] using hgl, rfl⟩
                rw [← hcost, costSum_cons]
                omega
          refine ⟨m.1, fun x => if x = state then some m else cache' x, ?_, ?_, ?_, hleast, ?_⟩
          · rw [dpRecurse_miss p fuel state cache hgoal' hhit]
            rw [hfold']
            simp only [List.nil_append]
            rw [hmin]
          · intro s v hv
            by_cases hss : s = state
            · subst hss
              have hv' : m = v := by simpa using hv
              subst hv'
              refine ⟨hgoal', ?_, hleast, ?_⟩
              · rw [hteq]
                simpa using hem
              · rw [hteq]
                rcases hclosed' em hem with hg | hc
                · exact Or.inl hg
                · right
                  by_cases hes : em.2.1 = s
                  · simp [hes]
                  · simpa [hes] using hc
            · have hv2 : cache' s = some v := by simpa [hss] using hv
              obtain ⟨c1, c2, c3, c4⟩ := hok' s v hv2
              refine ⟨c1, c2, c3, ?_⟩
              rcases c4 with hg | hc
              · exact Or.inl hg
              · right
                by_cases hds : v.2.2.1 = state
                · simp [hds]
                · simpa [hds] using hc
          · intro s v hv
            have hss : s ≠ state := by
              intro habs
              rw [habs, hhit] at hv
              simp at hv
            simpa [hss] using hext' s v hv
          · intro _
            simp

/-- Following the cached best edges terminates in a goal when chains are
bounded and the cache is well-formed. -/
theorem dpReconstruct_ok {σ α : Type} [LinearOrder σ] [LinearOrder α]
    (p : SearchProblem σ α) (states : List σ) (hcl : ClosedUnder p states)
    (cache : DPCache σ α) (hok : CacheOK p cache) :
    ∀ (n fuel : Nat) (s : σ) (acc : List (α × σ × Int)), s ∈ states →
      (∀ edges, chainFrom p s edges → edges.length ≤ n) →
      (p.isGoal s = true ∨ cache s ≠ none) → n + 1 ≤ fuel →
      ∃ hist, dpReconstruct p cache fuel s acc = some (Except.ok hist) := by
  intro n
  induction n with
  | zero =>
    intro fuel s acc hs hbound hcase hfuel
    obtain ⟨fuel, rfl⟩ : ∃ f, fuel = f + 1 := ⟨fuel - 1, by omega⟩
    rcases hcase with hg | hc
    · exact ⟨acc, by rw [dpReconstruct, if_pos hg]⟩
    · cases hv : cache s with
      | none => exact absurd hv hc
      | some v =>
        obtain ⟨_, hedge, _, _⟩ := hok s v hv
        have : chainFrom p s [v.2] := ⟨hedge, trivial⟩
        have := hbound [v.2] this
        simp at this
  | succ n ihn =>
    intro fuel s acc hs hbound hcase hfuel
    obtain ⟨fuel, rfl⟩ : ∃ f, fuel = f + 1 := ⟨fuel - 1, by omega⟩
    rcases hcase with hg | hc
    · exact ⟨acc, by rw [dpReconstruct, if_pos hg]⟩
    · cases hv : cache s with
      | none => exact absurd hv hc
      | some v =>
        obtain ⟨hng, hedge, _, hclosure⟩ := hok s v hv
        have hstep : dpReconstruct p cache (fuel + 1) s acc =
            dpReconstruct p cache fuel v.2.2.1 (acc ++ [(v.2.1, v.2.2.1, v.2.2.2)]) := by
          rw [dpReconstruct, if_neg (by simp [hng]), hv]
        rw [hstep]
        refine ihn fuel v.2.2.1 _ (hcl.2 s hs v.2 hedge) ?_ hclosure (by omega)
        intro edges hch
        have := hbound (v.2 :: edges) ⟨hedge, hch⟩
        simpa using Nat.lt_succ_iff.mp (Nat.lt_of_lt_of_le (Nat.lt_succ_self _) this)

/-- `dynamicProgramming` succeeds and returns the least start-to-goal cost
on a finite, acyclic, non-negative-cost universe in which every state can
reach a goal. -/
theorem dynamicProgramming_correct {σ α : Type} [LinearOrder σ] [LinearOrder α]
    (p : SearchProblem σ α) (states : List σ) (hcl : ClosedUnder p states)
    (hac : Acyclic p states) (hnn : NonnegCosts p)
    (hreach : ∀ s ∈ states, ∃ c, c ∈ futureCosts p s) :
    ∀ fuel, states.length + 2 ≤ fuel →
    ∃ tc hist, dynamicProgramming p fuel = some (Except.ok (tc, hist)) ∧
      IsLeast (futureCosts p p.startState) tc := by
  intro fuel hfuel
  obtain ⟨fuel, rfl⟩ : ∃ f, fuel = f + 1 := ⟨fuel - 1, by omega⟩
  have hbound : ∀ edges, chainFrom p p.startState edges →
      edges.length ≤ states.length :=
    fun edges hch => chain_length_le hcl hac p.startState hcl.1 edges hch
  have hok₀ : CacheOK p (fun _ => none) := by
    intro s v hv
    simp at hv
  obtain ⟨f, cache', hrun, hok', _, hleast, hcached⟩ :=
    dpRecurse_correct p states hcl hnn hreach states.length (fuel + 1)
      p.startState (fun _ => none) hcl.1 hbound (by omega) hok₀
  have hcase : p.isGoal p.startState = true ∨ cache' p.startState ≠ none := by
    by_cases hg : p.isGoal p.startState = true
    · exact Or.inl hg
    · refine Or.inr (hcached ?_)
      cases h : p.isGoal p.startState
      · rfl
      · exact absurd h hg
  obtain ⟨hist, hrec⟩ := dpReconstruct_ok p states hcl cache' hok' states.length (fuel + 1)
    p.startState [] hcl.1 hbound hcase (by omega)
  refine ⟨f, hist, ?_, hleast⟩
  simp only [dynamicProgramming, hrun, hrec]

/-- Every member of the universe has a least future cost. -/
theorem futureLeast_exists {σ α : Type} [LinearOrder σ] [LinearOrder α]
    (p : SearchProblem σ α) (states : List σ) (hcl : ClosedUnder p states)
    (hac : Acyclic p states) (hnn : NonnegCosts p)
    (hreach : ∀ s ∈ states, ∃ c, c ∈ futureCosts p s) :
    ∀ s ∈ states, ∃ f, IsLeast (futureCosts p s) f := by
  intro s hs
  have hbound : ∀ edges, chainFrom p s edges → edges.length ≤ states.length :=
    fun edges hch => chain_length_le hcl hac s hs edges hch
  obtain ⟨f, _, _, _, _, hleast, _⟩ :=
    dpRecurse_correct p states hcl hnn hreach states.length (states.length + 1)
      s (fun _ => none) hs hbound (by omega) (by intro s v hv; simp at hv)
  exact ⟨f, hleast⟩

/-- The Bellman principle for least future costs: at a non-goal state the
least future cost is the least value of edge cost plus destination's
least future cost. -/
theorem futureLeast_bellman {σ α : Type} [LinearOrder σ] [LinearOrder α]
    (p : SearchProblem σ α) (states : List σ) (hcl : ClosedUnder p states)
    (hac : Acyclic p states) (hnn : NonnegCosts p)
    (hreach : ∀ s ∈ states, ∃ c, c ∈ futureCosts p s) :
    ∀ s ∈ states, p.isGoal s = false →
    ∃ f, IsLeast (futureCosts p s) f ∧
      IsLeast {x | ∃ e ∈ p.succAndCost s, ∃ fd, IsLeast (futureCosts p e.2.1) fd ∧
        x = e.2.2 + fd} f := by
  intro s hs hng
  obtain ⟨f, hf⟩ := futureLeast_exists p states hcl hac hnn hreach s hs
  refine ⟨f, hf, ?_, ?_⟩
  · -- membership: decompose a least path through its first edge
    obtain ⟨edges, hch, hgl, hcost⟩ := hf.1
    cases edges with
    | nil =>
      exact absurd (by simpa [pathEnd] using hgl) (by simp [hng])
    | cons e l =>
      obtain ⟨fd, hfd⟩ := futureLeast_exists p states hcl hac hnn hreach e.2.1
        (hcl.2 s hs e hch.1)
      refine ⟨e, hch.1, fd, hfd, ?_⟩
      have h1 : fd ≤ costSum l := hfd.2 ⟨l, hch.2, by simpa [pathEnd] using hgl, rfl⟩
      have h2 : f ≤ e.2.2 + fd := by
        apply hf.2
        obtain ⟨edgesd, hchd, hgld, hcostd⟩ := hfd.1
        refine ⟨e :: edgesd, ⟨hch.1, hchd⟩, by simpa [pathEnd] using hgld, ?_⟩
        rw [costSum_cons, hcostd]
      have h3 : f = costSum (e :: l) := hcost.symm
      rw [costSum_cons] at h3
      omega
  · intro x hx
    obtain ⟨e, he, fd, hfd, rfl⟩ := hx
    apply hf.2
    obtain ⟨edgesd, hchd, hgld, hcostd⟩ := hfd.1
    refine ⟨e :: edgesd, ⟨he, hchd⟩, by simpa [pathEnd] using hgld, ?_⟩
    rw [costSum_cons, hcostd]

/-! ### Uniform cost search: invariant plumbing -/

theorem base_live_achievable {σ α : Type} [LinearOrder σ] {p : SearchProblem σ α}
    {states : List σ} {fin : List (σ × Int)} {ls : UCSLoopState σ α}
    (base : UCSBase p states fin ls) {s : σ} {q : Int}
    (hq : ls.frontier.priorities s = some q) (hlive : q ≠ DONE) :
    q ∈ reachCosts p s := by
  obtain ⟨_, _, hwit, _⟩ := base.disc s q hq hlive
  rcases hwit with ⟨rfl, rfl⟩ | ⟨u, du, a, c, hu, he, rfl⟩
  · exact reachCosts_zero p
  · exact reachCosts_extend ((base.fin_least (u, du) hu).1) he

theorem base_fin_nonneg {σ α : Type} [LinearOrder σ] {p : SearchProblem σ α}
    {states : List σ} {fin : List (σ × Int)} {ls : UCSLoopState σ α}
    (hnn : NonnegCosts p) (base : UCSBase p states fin ls) :
    ∀ x ∈ fin, 0 ≤ x.2 :=
  fun x hx => reachCosts_nonneg hnn (base.fin_least x hx).1

theorem base_live_nonneg {σ α : Type} [LinearOrder σ] {p : SearchProblem σ α}
    {states : List σ} {fin : List (σ × Int)} {ls : UCSLoopState σ α}
    (hnn : NonnegCosts p) (base : UCSBase p states fin ls) {s : σ} {q : Int}
    (hq : ls.frontier.priorities s = some q) (hlive : q ≠ DONE) : 0 ≤ q :=
  reachCosts_nonneg hnn (base_live_achievable base hq hlive)

theorem base_fin_length_le {σ α : Type} [LinearOrder σ] {p : SearchProblem σ α}
    {states : List σ} {fin : List (σ × Int)} {ls : UCSLoopState σ α}
    (base : UCSBase p states fin ls) : fin.length ≤ states.length := by
  have hsub : fin.map Prod.fst ⊆ states := by
    intro x hx
    simp only [List.mem_map] at hx
    obtain ⟨y, hy, rfl⟩ := hx
    exact base.fin_mem y hy
  have := List.Subperm.length_le (List.subperm_of_subset base.fin_nodup hsub)
  simpa using this

theorem priRefines_refl {σ : Type} (fr : PriorityQueue σ) : priRefines fr fr :=
  fun _ => Or.inl rfl

theorem priRefines_trans {σ : Type} {fr₁ fr₂ fr₃ : PriorityQueue σ}
    (h21 : priRefines fr₂ fr₁) (h32 : priRefines fr₃ fr₂) : priRefines fr₃ fr₁ := by
  intro s
  rcases h32 s with heq | ⟨hnd2, q₃, hq₃, hq₃nd, hle3⟩
  · rcases h21 s with heq' | ⟨hnd1, q₂, hq₂, hq₂nd, hle2⟩
    · exact Or.inl (heq.trans heq')
    · exact Or.inr ⟨hnd1, q₂, heq.trans hq₂, hq₂nd, hle2⟩
  · rcases h21 s with heq' | ⟨hnd1, q₂, hq₂, hq₂nd, hle2⟩
    · refine Or.inr ⟨by rw [← heq']; exact hnd2, q₃, hq₃, hq₃nd, ?_⟩
      intro q hq
      exact hle3 q (heq' ▸ hq)
    · refine Or.inr ⟨hnd1, q₃, hq₃, hq₃nd, ?_⟩
      intro q hq
      exact le_trans (hle3 q₂ hq₂) (hle2 q hq)

theorem priRefines_done_iff {σ : Type} {fr' fr : PriorityQueue σ}
    (h : priRefines fr' fr) (s : σ) :
    fr'.priorities s = some DONE ↔ fr.priorities s = some DONE := by
  rcases h s with heq | ⟨hnd, q', hq', hq'nd, _⟩
  · rw [heq]
  · constructor
    · intro habs
      rw [habs] at hq'
      exact absurd (Option.some.inj hq').symm hq'nd
    · intro habs
      exact absurd habs hnd

theorem priRefines_live_le {σ : Type} {fr' fr : PriorityQueue σ}
    (h : priRefines fr' fr) {t : σ} {b : Int}
    (hl : ∃ q, fr.priorities t = some q ∧ q ≠ DONE ∧ q ≤ b) :
    ∃ q, fr'.priorities t = some q ∧ q ≠ DONE ∧ q ≤ b := by
  obtain ⟨q, hq, hnd, hle⟩ := hl
  rcases h t with heq | ⟨_, q', hq', hq'nd, hle'⟩
  · exact ⟨q, heq.trans hq, hnd, hle⟩
  · exact ⟨q', hq', hq'nd, le_trans (hle' q hq) hle⟩

/-- The invariant holds right after the initial
`frontier.update(startState, 0)`. -/
theorem ucsInv_init {σ α : Type} [LinearOrder σ] (p : SearchProblem σ α)
    (states : List σ) (hcl : ClosedUnder p states) :
    UCSInv p states []
      ⟨(PriorityQueue.empty.update p.startState 0).2, fun _ => none, 0⟩ := by
  have hfr : (PriorityQueue.empty.update p.startState 0).2 =
      ⟨[(0, p.startState)],
        fun x => if x = p.startState then some 0 else none⟩ := rfl
  constructor
  · constructor
    · intro x hx; simp at hx
    · simp
    · intro s
      rw [hfr]
      constructor
      · intro habs
        by_cases hs : s = p.startState
        · simp only [hs, if_pos rfl] at habs
          have : (0 : Int) = DONE := by simpa using habs
          exact absurd this (by decide)
        · simp [hs] at habs
      · intro habs; simp at habs
    · intro x hx; simp at hx
    · intro x hx; simp at hx
    · intro i hi; simp at hi
    · left
      rw [hfr]
      simp
    · intro s q hq hlive
      rw [hfr] at hq
      by_cases hs : s = p.startState
      · have h0 : (0 : Int) = q := by simpa [hs] using hq
        subst h0
        subst hs
        refine ⟨hcl.1, by simp, Or.inl ⟨rfl, rfl⟩, ?_⟩
        intro habs
        exact absurd rfl habs
      · simp [hs] at hq
    · rw [hfr]
      simp
    · intro e he
      rw [hfr] at he
      simp only [List.mem_singleton] at he
      subst he
      rw [hfr]
      simp
    · intro s q hq hlive
      rw [hfr] at hq ⊢
      by_cases hs : s = p.startState
      · have h0 : (0 : Int) = q := by simpa [hs] using hq
        subst h0
        simp [hs]
      · simp [hs] at hq
    · rfl
  · intro x hx
    simp at hx

/-- The cut argument: a lower bound `qmin` on all live priorities is a
lower bound on the cost of every path from the start to a
not-yet-finalized state. -/
theorem ucs_cut {σ α : Type} [LinearOrder σ] {p : SearchProblem σ α} {states : List σ}
    {fin : List (σ × Int)} {ls : UCSLoopState σ α}
    (hnn : NonnegCosts p) (inv : UCSInv p states fin ls) {qmin : Int}
    (hmin : ∀ s' q', ls.frontier.priorities s' = some q' → q' ≠ DONE → qmin ≤ q') :
    ∀ edges, chainFrom p p.startState edges →
      pathEnd p.startState edges ∉ fin.map Prod.fst → qmin ≤ costSum edges := by
  intro edges
  induction edges using List.reverseRecOn with
  | nil =>
    intro _ hnotfin
    rcases inv.1.start_pri with hsp | hsp
    · have := hmin p.startState 0 hsp (by decide)
      simpa [costSum] using this
    · exact absurd hsp (by simpa [pathEnd] using hnotfin)
  | append_singleton es e ih =>
    intro hch hnotfin
    rw [chainFrom_append] at hch
    obtain ⟨hches, hche⟩ := hch
    have hee : e ∈ p.succAndCost (pathEnd p.startState es) := hche.1
    have hend : pathEnd p.startState (es ++ [e]) = e.2.1 := by
      rw [pathEnd_append]
      rfl
    rw [hend] at hnotfin
    by_cases hw : pathEnd p.startState es ∈ fin.map Prod.fst
    · simp only [List.mem_map] at hw
      obtain ⟨x, hx, hxw⟩ := hw
      have hdw : x.2 ≤ costSum es := (inv.1.fin_least x hx).2 ⟨es, hches, hxw.symm, rfl⟩
      have hee' : e ∈ p.succAndCost x.1 := by
        rw [hxw]
        exact hee
      rcases inv.2 x hx e hee' with hfin | ⟨qt, hqt, hqtnd, hqle⟩
      · exact absurd hfin hnotfin
      · have h1 : qmin ≤ qt := hmin e.2.1 qt hqt hqtnd
        rw [costSum_append, costSum_cons, costSum_nil]
        omega
    · have h1 : qmin ≤ costSum es := ih hches hw
      have h2 : 0 ≤ e.2.2 := hnn _ e hee
      rw [costSum_append, costSum_cons, costSum_nil]
      omega

/-- Walking the backpointers from the `i`-th finalized state yields a
valid start-to-there path realizing its finalized cost, and
`reconstructActions` returns exactly its action labels. -/
theorem ucs_bp_chain {σ α : Type} [LinearOrder σ] {p : SearchProblem σ α}
    {states : List σ} {fin : List (σ × Int)} {ls : UCSLoopState σ α}
    (hnn : NonnegCosts p) (inv : UCSInv p states fin ls) :
    ∀ (i : Nat), ∀ (hi : i < fin.length), ∀ (fuel : Nat) (acc : List α), i + 1 ≤ fuel →
      ∃ edges, chainFrom p p.startState edges ∧
        pathEnd p.startState edges = (fin.get ⟨i, hi⟩).1 ∧
        costSum edges = (fin.get ⟨i, hi⟩).2 ∧
        reconstructActions ls.backpointers p.startState fuel (fin.get ⟨i, hi⟩).1 acc =
          some (edges.map (fun e => e.1) ++ acc) := by
  intro i
  induction i using Nat.strong_induction_on with
  | _ i ih =>
    intro hi fuel acc hfuel
    obtain ⟨fuel, rfl⟩ : ∃ f, fuel = f + 1 := ⟨fuel - 1, by omega⟩
    by_cases hstart : (fin.get ⟨i, hi⟩).1 = p.startState
    · have hleast := inv.1.fin_least (fin.get ⟨i, hi⟩) (List.get_mem fin i hi)
      have h0 : (fin.get ⟨i, hi⟩).2 = 0 := by
        have hle : (fin.get ⟨i, hi⟩).2 ≤ 0 := hleast.2 ⟨[], trivial, hstart.symm, rfl⟩
        have hge : 0 ≤ (fin.get ⟨i, hi⟩).2 := reachCosts_nonneg hnn hleast.1
        omega
      refine ⟨[], trivial, hstart.symm, by rw [h0, costSum_nil], ?_⟩
      rw [reconstructActions, if_pos hstart]
      simp
    · obtain ⟨j, hj, a, c, hji, hbp, hedge, hcost⟩ := inv.1.fin_bp i hi hstart
      obtain ⟨edgesj, hchj, hendj, hcostj, hrecj⟩ := ih j hji hj fuel (a :: acc) (by omega)
      refine ⟨edgesj ++ [(a, (fin.get ⟨i, hi⟩).1, c)], ?_, ?_, ?_, ?_⟩
      · rw [chainFrom_append]
        refine ⟨hchj, ?_, trivial⟩
        rw [hendj]
        exact hedge
      · rw [pathEnd_append]
        rfl
      · rw [costSum_append, hcostj, costSum_cons, costSum_nil, hcost]
        ring
      · have hstep : reconstructActions ls.backpointers p.startState (fuel + 1)
            (fin.get ⟨i, hi⟩).1 acc =
            reconstructActions ls.backpointers p.startState fuel
              (fin.get ⟨j, hj⟩).1 (a :: acc) := by
          rw [reconstructActions, if_neg hstart, hbp]
        rw [hstep, hrecj]
        congr 1
        simp

theorem ucsExpand_cons {σ α : Type} [LinearOrder σ] (v : σ) (dv : Int) (a : α)
    (t : σ) (c : Int) (rest : List (α × σ × Int)) (fr : PriorityQueue σ)
    (bp : σ → Option (α × σ)) :
    ucsExpand v dv ((a, t, c) :: rest) fr bp =
      (if (fr.update t (dv + c)).1 = true then
        ucsExpand v dv rest (fr.update t (dv + c)).2
          (fun x => if x = t then some (a, v) else bp x)
      else ucsExpand v dv rest (fr.update t (dv + c)).2 bp) := by
  rw [ucsExpand]
  rcases hu : fr.update t (dv + c) with ⟨b, fr₁⟩
  cases b
  · simp
  · simp

/-- One relaxation step (`frontier.update` plus the conditional
backpointer overwrite) preserves the core invariant, only refines
priorities, relaxes the processed edge, and adds at most one heap
entry. -/
theorem ucsUpdate_base {σ α : Type} [LinearOrder σ] {p : SearchProblem σ α}
    {states : List σ} (hnn : NonnegCosts p) (hcl : ClosedUnder p states)
    {fin' : List (σ × Int)} {v : σ} {dv : Int}
    (hvfin : (v, dv) ∈ fin') (hv0 : 0 ≤ dv) (hfinle : ∀ x ∈ fin', x.2 ≤ dv)
    {fr : PriorityQueue σ} {bp : σ → Option (α × σ)} {n : Nat}
    (base : UCSBase p states fin' ⟨fr, bp, n⟩)
    (a : α) (t : σ) (c : Int) (hedge : (a, t, c) ∈ p.succAndCost v) :
    UCSBase p states fin'
      ⟨(fr.update t (dv + c)).2,
       (if (fr.update t (dv + c)).1 = true
        then (fun x => if x = t then some (a, v) else bp x) else bp), n⟩ ∧
    priRefines (fr.update t (dv + c)).2 fr ∧
    (t ∈ fin'.map Prod.fst ∨ ∃ q, (fr.update t (dv + c)).2.priorities t = some q ∧
      q ≠ DONE ∧ q ≤ dv + c) ∧
    (fr.update t (dv + c)).2.heap.length ≤ fr.heap.length + 1 := by
  have hc0 : 0 ≤ c := hnn v (a, t, c) hedge
  have hnewP : (0 : Int) ≤ dv + c := by omega
  have hnewPnd : dv + c ≠ DONE := by
    have := DONE_neg
    omega
  have hvstates : v ∈ states := base.fin_mem (v, dv) hvfin
  have htstates : t ∈ states := hcl.2 v hvstates (a, t, c) hedge
  rcases update_cases fr t (dv + c) with ⟨hb, hheap, hpri, hcond⟩ |
    ⟨hb, heq, old, hold, holdle⟩
  · -- successful update
    have ht_notfin : t ∉ fin'.map Prod.fst := by
      intro habs
      have hdone := (base.fin_done t).mpr habs
      rcases hcond with hnone | ⟨old, hold, hlt⟩
      · rw [hdone] at hnone
        simp at hnone
      · rw [hdone] at hold
        have hDo : DONE = old := by simpa using hold
        have := DONE_neg
        omega
    have hbp : (if (fr.update t (dv + c)).1 = true
        then (fun x => if x = t then some (a, v) else bp x) else bp) =
        (fun x => if x = t then some (a, v) else bp x) := if_pos hb
    rw [hbp]
    have hts : t ≠ p.startState := by
      intro habs
      rcases base.start_pri with hsp | hsp
      · rw [habs] at hcond
        rcases hcond with hnone | ⟨old, hold, hlt⟩
        · rw [hsp] at hnone
          simp at hnone
        · rw [hsp] at hold
          have h00 : (0 : Int) = old := by simpa using hold
          omega
      · exact ht_notfin (habs ▸ hsp)
    refine ⟨?_, ?_, ?_, ?_⟩
    · constructor
      · exact base.fin_mem
      · exact base.fin_nodup
      · intro s
        simp only [hpri]
        by_cases hs : s = t
        · subst hs
          simp only [if_pos rfl]
          constructor
          · intro habs
            exact absurd (Option.some.inj habs) hnewPnd
          · intro habs
            exact absurd habs ht_notfin
        · simp only [if_neg hs]
          exact base.fin_done s
      · exact base.fin_nongoal
      · exact base.fin_least
      · intro i hi hne
        have hmem : (fin'.get ⟨i, hi⟩).1 ∈ fin'.map Prod.fst := by
          simp only [List.mem_map]
          exact ⟨fin'.get ⟨i, hi⟩, List.get_mem fin' i hi, rfl⟩
        have hneq : (fin'.get ⟨i, hi⟩).1 ≠ t := by
          intro habs
          exact ht_notfin (habs ▸ hmem)
        obtain ⟨j, hj, a', c', hji, hbpj, hedgej, hcostj⟩ := base.fin_bp i hi hne
        refine ⟨j, hj, a', c', hji, ?_, hedgej, hcostj⟩
        have hneq' : fin'[i].1 ≠ t := hneq
        simpa [hneq'] using hbpj
      · rcases base.start_pri with hsp | hsp
        · left
          simp only [hpri]
          rw [if_neg (by intro habs; exact hts habs.symm)]
          exact hsp
        · exact Or.inr hsp
      · intro s q hq hlive
        by_cases hs : s = t
        · subst hs
          have hqq : q = dv + c := by
            rw [hpri] at hq
            simpa using hq.symm
          subst hqq
          refine ⟨htstates, ?_, ?_, ?_⟩
          · intro x hx
            have := hfinle x hx
            omega
          · exact Or.inr ⟨v, dv, a, c, hvfin, hedge, rfl⟩
          · intro _
            exact ⟨v, dv, a, c, hvfin, by simp, hedge, rfl⟩
        · have hq' : fr.priorities s = some q := by
            rw [hpri] at hq
            simpa [hs] using hq
          obtain ⟨d1, d2, d3, d4⟩ := base.disc s q hq' hlive
          refine ⟨d1, d2, d3, ?_⟩
          intro hns
          obtain ⟨u, du, a', c', hu, hbps, hedges, hqe⟩ := d4 hns
          exact ⟨u, du, a', c', hu, by simpa [hs] using hbps, hedges, hqe⟩
      · rw [hheap]
        exact List.Sorted.orderedInsert _ _ base.heap_sorted
      · intro e he
        rw [hheap] at he
        rcases (List.mem_orderedInsert _).mp he with rfl | he'
        · refine ⟨dv + c, ?_, fun _ => le_refl _⟩
          rw [hpri]
          simp
        · obtain ⟨q0, hq0, himp⟩ := base.heap_covered e he'
          by_cases hs : e.2 = t
          · refine ⟨dv + c, ?_, fun _ => ?_⟩
            · rw [hpri]
              simp [hs]
            · rcases hcond with hnone | ⟨old, hold, hlt⟩
              · rw [hs] at hq0
                rw [hq0] at hnone
                simp at hnone
              · rw [hs] at hq0
                rw [hold] at hq0
                have hq0old : old = q0 := Option.some.inj hq0
                subst hq0old
                have holdnd : old ≠ DONE := by
                  have := DONE_neg
                  omega
                have := himp holdnd
                omega
          · refine ⟨q0, ?_, himp⟩
            rw [hpri]
            simpa [hs] using hq0
      · intro s q hq hlive
        rw [hheap]
        by_cases hs : s = t
        · subst hs
          have hqq : q = dv + c := by
            rw [hpri] at hq
            simpa using hq.symm
          subst hqq
          exact (List.mem_orderedInsert _).mpr (Or.inl rfl)
        · have hq' : fr.priorities s = some q := by
            rw [hpri] at hq
            simpa [hs] using hq
          exact (List.mem_orderedInsert _).mpr (Or.inr (base.heap_present s q hq' hlive))
      · exact base.explored_eq
    · intro s
      by_cases hs : s = t
      · subst hs
        right
        rcases hcond with hnone | ⟨old, hold, hlt⟩
        · refine ⟨by rw [hnone]; simp, dv + c, ?_, hnewPnd, ?_⟩
          · rw [hpri]
            simp
          · intro q hq
            rw [hnone] at hq
            simp at hq
        · have holdnd : old ≠ DONE := by
            have := DONE_neg
            omega
          refine ⟨by rw [hold]; simpa using holdnd, dv + c, ?_, hnewPnd, ?_⟩
          · rw [hpri]
            simp
          · intro q hq
            rw [hold] at hq
            have : old = q := Option.some.inj hq
            omega
      · left
        rw [hpri]
        simp [hs]
    · right
      refine ⟨dv + c, ?_, hnewPnd, le_refl _⟩
      rw [hpri]
      simp
    · rw [hheap, List.orderedInsert_length]
  · -- no update: queue unchanged
    have hbp : (if (fr.update t (dv + c)).1 = true
        then (fun x => if x = t then some (a, v) else bp x) else bp) = bp := by
      rw [hb]
      simp
    rw [hbp, heq]
    refine ⟨base, priRefines_refl fr, ?_, by omega⟩
    by_cases holddone : old = DONE
    · left
      exact (base.fin_done t).mp (holddone ▸ hold)
    · right
      exact ⟨old, hold, holddone, holdle⟩

/-- Expanding the freshly finalized state `v` preserves the core
invariant, only refines priorities, relaxes all processed edges, and
grows the heap by at most one entry per edge. -/
theorem ucsExpand_inv {σ α : Type} [LinearOrder σ] {p : SearchProblem σ α}
    {states : List σ} (hnn : NonnegCosts p) (hcl : ClosedUnder p states)
    (fin' : List (σ × Int)) (v : σ) (dv : Int)
    (hvfin : (v, dv) ∈ fin') (hv0 : 0 ≤ dv) (hfinle : ∀ x ∈ fin', x.2 ≤ dv) :
    ∀ (edges : List (α × σ × Int)) (fr : PriorityQueue σ) (bp : σ → Option (α × σ))
      (n : Nat),
      (∀ e ∈ edges, e ∈ p.succAndCost v) →
      UCSBase p states fin' ⟨fr, bp, n⟩ →
      UCSBase p states fin'
        ⟨(ucsExpand v dv edges fr bp).1, (ucsExpand v dv edges fr bp).2, n⟩ ∧
      priRefines (ucsExpand v dv edges fr bp).1 fr ∧
      (∀ e ∈ edges, e.2.1 ∈ fin'.map Prod.fst ∨
        ∃ q, (ucsExpand v dv edges fr bp).1.priorities e.2.1 = some q ∧ q ≠ DONE ∧
          q ≤ dv + e.2.2) ∧
      (ucsExpand v dv edges fr bp).1.heap.length ≤ fr.heap.length + edges.length := by
  intro edges
  induction edges with
  | nil =>
    intro fr bp n _ base
    exact ⟨base, priRefines_refl fr, by simp, by simp [ucsExpand]⟩
  | cons e rest ihe =>
    intro fr bp n hmem base
    obtain ⟨a, t, c⟩ := e
    have hedge : (a, t, c) ∈ p.succAndCost v := hmem _ (List.mem_cons_self _ _)
    obtain ⟨base₁, href₁, hrel₁, hlen₁⟩ :=
      ucsUpdate_base hnn hcl hvfin hv0 hfinle base a t c hedge
    rw [ucsExpand_cons]
    by_cases hb : (fr.update t (dv + c)).1 = true
    · rw [if_pos hb] at base₁ ⊢
      obtain ⟨base₂, href₂, hrel₂, hlen₂⟩ :=
        ihe (fr.update t (dv + c)).2
          (fun x => if x = t then some (a, v) else bp x) n
          (fun x hx => hmem x (List.mem_cons_of_mem _ hx)) base₁
      refine ⟨base₂, priRefines_trans href₁ href₂, ?_, ?_⟩
      · intro e' he'
        rcases List.mem_cons.mp he' with rfl | he''
        · rcases hrel₁ with hfin | hlive
          · exact Or.inl hfin
          · exact Or.inr (priRefines_live_le href₂ hlive)
        · exact hrel₂ e' he''
      · calc (ucsExpand v dv rest (fr.update t (dv + c)).2
            (fun x => if x = t then some (a, v) else bp x)).1.heap.length
            ≤ (fr.update t (dv + c)).2.heap.length + rest.length := hlen₂
          _ ≤ fr.heap.length + 1 + rest.length := by omega
          _ = fr.heap.length + (rest.length + 1) := by omega
          _ = fr.heap.length + ((a, t, c) :: rest).length := by simp
    · rw [if_neg hb] at base₁ ⊢
      obtain ⟨base₂, href₂, hrel₂, hlen₂⟩ :=
        ihe (fr.update t (dv + c)).2 bp n
          (fun x hx => hmem x (List.mem_cons_of_mem _ hx)) base₁
      refine ⟨base₂, priRefines_trans href₁ href₂, ?_, ?_⟩
      · intro e' he'
        rcases List.mem_cons.mp he' with rfl | he''
        · rcases hrel₁ with hfin | hlive
          · exact Or.inl hfin
          · exact Or.inr (priRefines_live_le href₂ hlive)
        · exact hrel₂ e' he''
      · calc (ucsExpand v dv rest (fr.update t (dv + c)).2 bp).1.heap.length
            ≤ (fr.update t (dv + c)).2.heap.length + rest.length := hlen₂
          _ ≤ fr.heap.length + 1 + rest.length := by omega
          _ = fr.heap.length + (rest.length + 1) := by omega
          _ = fr.heap.length + ((a, t, c) :: rest).length := by simp

/-- Removing one element from a filtered sum. -/
theorem filter_sum_drop {σ : Type} :
    ∀ (states : List σ), states.Nodup → ∀ (f : σ → Nat) (pr pr' : σ → Bool) (v : σ),
      v ∈ states → pr v = true → pr' v = false → (∀ s, s ≠ v → pr' s = pr s) →
      ((states.filter pr').map f).sum + f v = ((states.filter pr).map f).sum := by
  intro states hnd f pr pr' v hv hprv hprv' hagree
  obtain ⟨l₁, l₂, rfl⟩ := List.append_of_mem hv
  have hnd₁ : v ∉ l₁ := by
    intro habs
    rw [List.nodup_append] at hnd
    exact hnd.2.2 habs (List.mem_cons_self _ _)
  have hnd₂ : v ∉ l₂ := by
    rw [List.nodup_append] at hnd
    exact (List.nodup_cons.mp hnd.2.1).1
  have h₁ : l₁.filter pr' = l₁.filter pr :=
    List.filter_congr (fun x hx => hagree x (fun habs => hnd₁ (habs ▸ hx)))
  have h₂ : l₂.filter pr' = l₂.filter pr :=
    List.filter_congr (fun x hx => hagree x (fun habs => hnd₂ (habs ▸ hx)))
  rw [List.filter_append, List.filter_append, List.filter_cons_of_pos hprv,
    List.filter_cons_of_neg (by simp [hprv']), h₁, h₂]
  simp only [List.map_append, List.sum_append, List.map_cons, List.sum_cons]
  omega

theorem ucsStep_eq_none {σ α : Type} [LinearOrder σ] (p : SearchProblem σ α)
    (recFuel : Nat) (ls : UCSLoopState σ α) {fr' : PriorityQueue σ}
    (h : ls.frontier.removeMin = (none, fr')) :
    ucsStep p recFuel ls = Sum.inl ⟨none, none, ls.numStatesExplored⟩ := by
  simp only [ucsStep, h]

theorem ucsStep_eq_goal {σ α : Type} [LinearOrder σ] (p : SearchProblem σ α)
    (recFuel : Nat) (ls : UCSLoopState σ α) {fr' : PriorityQueue σ} {s : σ} {q : Int}
    (h : ls.frontier.removeMin = (some (s, q), fr')) (hg : p.isGoal s = true) :
    ucsStep p recFuel ls = Sum.inl
      ⟨reconstructActions ls.backpointers p.startState recFuel s [],
        some q, ls.numStatesExplored + 1⟩ := by
  simp only [ucsStep, h, hg, if_true]

theorem ucsStep_eq_expand {σ α : Type} [LinearOrder σ] (p : SearchProblem σ α)
    (recFuel : Nat) (ls : UCSLoopState σ α) {fr' : PriorityQueue σ} {s : σ} {q : Int}
    (h : ls.frontier.removeMin = (some (s, q), fr')) (hg : p.isGoal s = false) :
    ucsStep p recFuel ls = Sum.inr
      ⟨(ucsExpand s q (p.succAndCost s) fr' ls.backpointers).1,
       (ucsExpand s q (p.succAndCost s) fr' ls.backpointers).2,
       ls.numStatesExplored + 1⟩ := by
  simp only [ucsStep, h, hg]
  rcases hx : ucsExpand s q (p.succAndCost s) fr' ls.backpointers with ⟨fr'', bp'⟩
  simp [hx]

/-- When `removeMin` reports an empty frontier, no goal is reachable. -/
theorem ucs_exhausted {σ α : Type} [LinearOrder σ] {p : SearchProblem σ α}
    {states : List σ} {fin : List (σ × Int)} {ls : UCSLoopState σ α}
    (inv : UCSInv p states fin ls) {fr' : PriorityQueue σ}
    (h : ls.frontier.removeMin = (none, fr')) :
    ∀ edges, chainFrom p p.startState edges →
      p.isGoal (pathEnd p.startState edges) = true → False := by
  obtain ⟨_, halldone⟩ := removeMin_spec_none h
  have hall : ∀ s q, ls.frontier.priorities s = some q → q = DONE := by
    intro s q hq
    by_contra hne
    have hmem := inv.1.heap_present s q hq hne
    have h2 := halldone (q, s) hmem
    rw [hq] at h2
    exact hne (Option.some.inj h2)
  have hreachfin : ∀ edges, chainFrom p p.startState edges →
      pathEnd p.startState edges ∈ fin.map Prod.fst := by
    intro edges
    induction edges using List.reverseRecOn with
    | nil =>
      intro _
      rcases inv.1.start_pri with hsp | hsp
      · exact absurd (hall _ 0 hsp) (by decide)
      · simpa [pathEnd] using hsp
    | append_singleton es e ih =>
      intro hch
      rw [chainFrom_append] at hch
      obtain ⟨hches, hche⟩ := hch
      have hw := ih hches
      simp only [List.mem_map] at hw
      obtain ⟨x, hx, hxw⟩ := hw
      have hend : pathEnd p.startState (es ++ [e]) = e.2.1 := by
        rw [pathEnd_append]
        rfl
      rw [hend]
      rcases inv.2 x hx e (by rw [hxw]; exact hche.1) with hfin | ⟨qt, hqt, hqtnd, _⟩
      · exact hfin
      · exact absurd (hall _ qt hqt) hqtnd
  intro edges hch hgl
  have hmem := hreachfin edges hch
  simp only [List.mem_map] at hmem
  obtain ⟨x, hx, hxe⟩ := hmem
  have hng := inv.1.fin_nongoal x hx
  rw [hxe, hgl] at hng
  simp at hng

/-- Facts about a successful pop: the popped priority is the state's
true least reach cost, a global minimum over live priorities, and the
backpointers reconstruct a realizing path. -/
theorem ucs_pop_facts {σ α : Type} [LinearOrder σ] {p : SearchProblem σ α}
    {states : List σ} {fin : List (σ × Int)} {ls : UCSLoopState σ α}
    (hnn : NonnegCosts p) (inv : UCSInv p states fin ls)
    {fr' : PriorityQueue σ} {s : σ} {q : Int}
    (h : ls.frontier.removeMin = (some (s, q), fr'))
    (recFuel : Nat) (hrec : states.length + 2 ≤ recFuel) :
    IsLeast (reachCosts p s) q ∧ 0 ≤ q ∧ s ∉ fin.map Prod.fst ∧ s ∈ states ∧
    ls.frontier.priorities s = some q ∧ q ≠ DONE ∧
    (∀ s' q', ls.frontier.priorities s' = some q' → q' ≠ DONE → q ≤ q') ∧
    (∀ x ∈ fin, x.2 ≤ q) ∧
    (∃ edges, chainFrom p p.startState edges ∧ pathEnd p.startState edges = s ∧
      costSum edges = q ∧
      reconstructActions ls.backpointers p.startState recFuel s [] =
        some (edges.map (fun e => e.1))) := by
  obtain ⟨hps, hqnd, _, _, hminall⟩ :=
    removeMin_min inv.1.heap_sorted inv.1.heap_covered inv.1.heap_present h
  have hsnotfin : s ∉ fin.map Prod.fst := by
    intro habs
    have := (inv.1.fin_done s).mpr habs
    rw [hps] at this
    exact hqnd (Option.some.inj this)
  obtain ⟨hsstates, hfinleq, hwit, hbpwit⟩ := inv.1.disc s q hps hqnd
  have hq0 : 0 ≤ q := base_live_nonneg hnn inv.1 hps hqnd
  have hleast : IsLeast (reachCosts p s) q := by
    refine ⟨base_live_achievable inv.1 hps hqnd, ?_⟩
    intro c hc
    obtain ⟨edges, hch, hend, hcost⟩ := hc
    rw [← hcost]
    exact ucs_cut hnn inv hminall edges hch (hend ▸ hsnotfin)
  refine ⟨hleast, hq0, hsnotfin, hsstates, hps, hqnd, hminall, hfinleq, ?_⟩
  obtain ⟨R, rfl⟩ : ∃ R, recFuel = R + 1 := ⟨recFuel - 1, by omega⟩
  by_cases hss : s = p.startState
  · subst hss
    have hq00 : q = 0 := by
      have h1 : q ≤ 0 := hleast.2 (reachCosts_zero p)
      omega
    refine ⟨[], trivial, rfl, by rw [costSum_nil, hq00], ?_⟩
    rw [reconstructActions, if_pos rfl]
    simp
  · obtain ⟨u, du, a, c, hufin, hbps, hedge, hqe⟩ := hbpwit hss
    obtain ⟨⟨j, hj⟩, hget⟩ := List.mem_iff_get.mp hufin
    have hjlen : j + 1 ≤ R := by
      have h1 : fin.length ≤ states.length := base_fin_length_le inv.1
      omega
    obtain ⟨edgesj, hchj, hendj, hcostj, hrecj⟩ :=
      ucs_bp_chain hnn inv j hj R [a] hjlen
    rw [hget] at hendj hcostj hrecj
    refine ⟨edgesj ++ [(a, s, c)], ?_, ?_, ?_, ?_⟩
    · rw [chainFrom_append]
      refine ⟨hchj, ?_, trivial⟩
      rw [hendj]
      exact hedge
    · rw [pathEnd_append]
      rfl
    · rw [costSum_append, hcostj, costSum_cons, costSum_nil, hqe]
      ring
    · have hstep : reconstructActions ls.backpointers p.startState (R + 1) s [] =
          reconstructActions ls.backpointers p.startState R u [a] := by
        rw [reconstructActions, if_neg hss, hbps]
      rw [hstep, hrecj]
      congr 1
      simp

/-- Popping a non-goal state and expanding it preserves the invariant
with the popped pair appended to the ghost list, and strictly decreases
the termination measure. -/
theorem ucs_expand_pop {σ α : Type} [LinearOrder σ] {p : SearchProblem σ α}
    {states : List σ} {fin : List (σ × Int)} {ls : UCSLoopState σ α}
    (hnn : NonnegCosts p) (hcl : ClosedUnder p states) (hnd : states.Nodup)
    (inv : UCSInv p states fin ls)
    {fr' : PriorityQueue σ} {s : σ} {q : Int}
    (h : ls.frontier.removeMin = (some (s, q), fr')) (hg : p.isGoal s = false) :
    UCSInv p states (fin ++ [(s, q)])
      ⟨(ucsExpand s q (p.succAndCost s) fr' ls.backpointers).1,
       (ucsExpand s q (p.succAndCost s) fr' ls.backpointers).2,
       ls.numStatesExplored + 1⟩ ∧
    ucsMeasure p states
      ⟨(ucsExpand s q (p.succAndCost s) fr' ls.backpointers).1,
       (ucsExpand s q (p.succAndCost s) fr' ls.backpointers).2,
       ls.numStatesExplored + 1⟩ + 1 ≤ ucsMeasure p states ls := by
  obtain ⟨hleast, hq0, hsnotfin, hsstates, hps, hqnd, hminall, hfinleq, _⟩ :=
    ucs_pop_facts hnn inv h (states.length + 2) (le_refl _)
  obtain ⟨_, _, b3, b4, b5, _⟩ := removeMin_basic h
  obtain ⟨_, _, hpair', hpres', _⟩ :=
    removeMin_min inv.1.heap_sorted inv.1.heap_covered inv.1.heap_present h
  have hfr' : ∀ x, fr'.priorities x =
      if x = s then some DONE else ls.frontier.priorities x :=
    fun x => congrFun b3 x
  have hmapfin' : (fin ++ [(s, q)]).map Prod.fst = fin.map Prod.fst ++ [s] := by simp
  have basemid : UCSBase p states (fin ++ [(s, q)])
      ⟨fr', ls.backpointers, ls.numStatesExplored + 1⟩ := by
    constructor
    · intro x hx
      rcases List.mem_append.mp hx with hx' | hx'
      · exact inv.1.fin_mem x hx'
      · have : x = (s, q) := by simpa using hx'
        subst this
        exact hsstates
    · rw [hmapfin', List.nodup_append]
      refine ⟨inv.1.fin_nodup, List.nodup_singleton s, ?_⟩
      intro y hy hy2
      have : y = s := by simpa using hy2
      subst this
      exact hsnotfin hy
    · intro t
      rw [hmapfin', hfr' t]
      by_cases hts : t = s
      · subst hts
        simp
      · rw [if_neg hts, List.mem_append]
        constructor
        · intro hd
          exact Or.inl ((inv.1.fin_done t).mp hd)
        · intro hd
          rcases hd with hd | hd
          · exact (inv.1.fin_done t).mpr hd
          · have : t = s := by simpa using hd
            exact absurd this hts
    · intro x hx
      rcases List.mem_append.mp hx with hx' | hx'
      · exact inv.1.fin_nongoal x hx'
      · have : x = (s, q) := by simpa using hx'
        subst this
        exact hg
    · intro x hx
      rcases List.mem_append.mp hx with hx' | hx'
      · exact inv.1.fin_least x hx'
      · have : x = (s, q) := by simpa using hx'
        subst this
        exact hleast
    · intro i hi hne
      by_cases hilen : i < fin.length
      · have hgeti : (fin ++ [(s, q)]).get ⟨i, hi⟩ = fin.get ⟨i, hilen⟩ :=
          List.getElem_append_left hilen
        rw [hgeti] at hne ⊢
        obtain ⟨j, hj, a, c, hji, hbpj, hedgej, hcostj⟩ := inv.1.fin_bp i hilen hne
        have hj' : j < (fin ++ [(s, q)]).length := by
          simp only [List.length_append, List.length_singleton]
          omega
        have hgetj : (fin ++ [(s, q)]).get ⟨j, hj'⟩ = fin.get ⟨j, hj⟩ :=
          List.getElem_append_left hj
        refine ⟨j, hj', a, c, hji, ?_, ?_, ?_⟩
        · rw [hgetj]
          exact hbpj
        · rw [hgetj]
          exact hedgej
        · rw [hgetj]
          exact hcostj
      · have hieq : i = fin.length := by
          have : i < fin.length + 1 := by simpa using hi
          omega
        have hgeti : (fin ++ [(s, q)]).get ⟨i, hi⟩ = (s, q) :=
          List.getElem_concat_length fin (s, q) i hieq hi
        rw [hgeti] at hne ⊢
        obtain ⟨_, _, _, hbpwit⟩ := inv.1.disc s q hps hqnd
        obtain ⟨u, du, a, c, hufin, hbps, hedge, hqe⟩ := hbpwit hne
        obtain ⟨⟨j, hj⟩, hget⟩ := List.mem_iff_get.mp hufin
        have hj' : j < (fin ++ [(s, q)]).length := by
          simp only [List.length_append, List.length_singleton]
          omega
        have hgetj : (fin ++ [(s, q)]).get ⟨j, hj'⟩ = fin.get ⟨j, hj⟩ :=
          List.getElem_append_left hj
        refine ⟨j, hj', a, c, by omega, ?_, ?_, ?_⟩
        · rw [hgetj, hget]
          exact hbps
        · rw [hgetj, hget]
          exact hedge
        · rw [hgetj, hget]
          exact hqe
    · rcases inv.1.start_pri with hsp | hsp
      · by_cases hss : s = p.startState
        · right
          rw [hmapfin', List.mem_append]
          right
          simp [hss]
        · left
          rw [hfr' p.startState, if_neg (fun habs => hss habs.symm)]
          exact hsp
      · right
        rw [hmapfin']
        exact List.mem_append_left _ hsp
    · intro t qt hqt hlive
      have hts : t ≠ s := by
        intro habs
        rw [habs, hfr' s, if_pos rfl] at hqt
        exact hlive (Option.some.inj hqt).symm
      have hqt' : ls.frontier.priorities t = some qt := by
        rw [hfr' t, if_neg hts] at hqt
        exact hqt
      obtain ⟨d1, d2, d3, d4⟩ := inv.1.disc t qt hqt' hlive
      refine ⟨d1, ?_, ?_, ?_⟩
      · intro x hx
        rcases List.mem_append.mp hx with hx' | hx'
        · exact d2 x hx'
        · have : x = (s, q) := by simpa using hx'
          subst this
          exact hminall t qt hqt' hlive
      · rcases d3 with hl | ⟨u, du, a, c, hu, he, he2⟩
        · exact Or.inl hl
        · exact Or.inr ⟨u, du, a, c, List.mem_append_left _ hu, he, he2⟩
      · intro hns
        obtain ⟨u, du, a, c, hu, hbp, he, he2⟩ := d4 hns
        exact ⟨u, du, a, c, List.mem_append_left _ hu, hbp, he, he2⟩
    · exact hpair'
    · intro e he
      have hein := b5 e he
      obtain ⟨q0, hq0', himp⟩ := inv.1.heap_covered e hein
      by_cases hes : e.2 = s
      · refine ⟨DONE, ?_, fun habs => absurd rfl habs⟩
        rw [hfr' e.2, if_pos hes]
      · refine ⟨q0, ?_, himp⟩
        rw [hfr' e.2, if_neg hes]
        exact hq0'
    · intro t qt hqt hlive
      have hts : t ≠ s := by
        intro habs
        rw [habs, hfr' s, if_pos rfl] at hqt
        exact hlive (Option.some.inj hqt).symm
      have hqt' : ls.frontier.priorities t = some qt := by
        rw [hfr' t, if_neg hts] at hqt
        exact hqt
      exact hpres' t qt hqt' hlive hts
    · simp only [List.length_append, List.length_singleton]
      rw [inv.1.explored_eq]
  have hvfin : (s, q) ∈ fin ++ [(s, q)] := List.mem_append_right _ (by simp)
  have hfinle : ∀ x ∈ fin ++ [(s, q)], x.2 ≤ q := by
    intro x hx
    rcases List.mem_append.mp hx with hx' | hx'
    · exact hfinleq x hx'
    · have : x = (s, q) := by simpa using hx'
      subst this
      exact le_refl _
  obtain ⟨basefin, href, hrel, hlen⟩ :=
    ucsExpand_inv hnn hcl (fin ++ [(s, q)]) s q hvfin hq0 hfinle
      (p.succAndCost s) fr' ls.backpointers (ls.numStatesExplored + 1)
      (fun e he => he) basemid
  constructor
  · refine ⟨basefin, ?_⟩
    intro x hx e he
    rcases List.mem_append.mp hx with hx' | hx'
    · rcases inv.2 x hx' e he with hfinm | ⟨qt, hqt, hqtnd, hqle⟩
      · left
        rw [hmapfin']
        exact List.mem_append_left _ hfinm
      · by_cases hes : e.2.1 = s
        · left
          rw [hmapfin', hes]
          exact List.mem_append_right _ (by simp)
        · right
          apply priRefines_live_le href
          refine ⟨qt, ?_, hqtnd, hqle⟩
          rw [hfr' e.2.1, if_neg hes]
          exact hqt
    · have : x = (s, q) := by simpa using hx'
      subst this
      exact hrel e he
  · have hdoneiff := priRefines_done_iff href
    have hfs : ((fun x => !(decide
        ((ucsExpand s q (p.succAndCost s) fr' ls.backpointers).1.priorities x =
          some DONE))) : σ → Bool) s = false := by
      have h1 : fr'.priorities s = some DONE := by
        rw [hfr' s, if_pos rfl]
      have h2 := (hdoneiff s).mpr h1
      simp [h2]
    have hos : ((fun x => !(decide
        (ls.frontier.priorities x = some DONE))) : σ → Bool) s = true := by
      simp only [hps]
      simp only [Option.some.injEq, Bool.not_eq_true']
      rw [decide_eq_false]
      intro habs
      exact hqnd habs
    have hagree : ∀ x, x ≠ s →
        ((fun x => !(decide
          ((ucsExpand s q (p.succAndCost s) fr' ls.backpointers).1.priorities x =
            some DONE))) : σ → Bool) x =
        ((fun x => !(decide (ls.frontier.priorities x = some DONE))) : σ → Bool) x := by
      intro x hx
      have h1 : fr'.priorities x = ls.frontier.priorities x := by
        rw [hfr' x, if_neg hx]
      have h2 := hdoneiff x
      rw [h1] at h2
      by_cases hd : ls.frontier.priorities x = some DONE
      · simp [h2.mpr hd, hd]
      · have : ¬ (ucsExpand s q (p.succAndCost s) fr' ls.backpointers).1.priorities x =
            some DONE := fun habs => hd (h2.mp habs)
        simp [this, hd]
    have hsum := filter_sum_drop states hnd (fun x => (p.succAndCost x).length)
      (fun x => !(decide (ls.frontier.priorities x = some DONE)))
      (fun x => !(decide
        ((ucsExpand s q (p.succAndCost s) fr' ls.backpointers).1.priorities x =
          some DONE)))
      s hsstates hos hfs hagree
    have hsum' : ((states.filter (fun x => !(decide
        ((ucsExpand s q (p.succAndCost s) fr' ls.backpointers).1.priorities x =
          some DONE)))).map (fun x => (p.succAndCost x).length)).sum +
        (p.succAndCost s).length =
        ((states.filter (fun x => !(decide
          (ls.frontier.priorities x = some DONE)))).map
            (fun x => (p.succAndCost x).length)).sum := hsum
    simp only [ucsMeasure]
    dsimp only
    omega

/-- Running the loop from an invariant state with enough fuel yields
either a correct no-path report or an optimal goal report. -/
theorem ucsLoop_correct {σ α : Type} [LinearOrder σ] {p : SearchProblem σ α}
    {states : List σ} (hnn : NonnegCosts p) (hcl : ClosedUnder p states)
    (hnd : states.Nodup) :
    ∀ (fuel : Nat) (fin : List (σ × Int)) (ls : UCSLoopState σ α) (recFuel : Nat),
      UCSInv p states fin ls → ucsMeasure p states ls + 1 ≤ fuel →
      states.length + 2 ≤ recFuel →
      ∃ r, ucsLoop p recFuel fuel ls = some r ∧
        ((r.actions = none ∧ r.totalCost = none ∧
          ∀ edges, chainFrom p p.startState edges →
            p.isGoal (pathEnd p.startState edges) = true → False) ∨
         (∃ q edges, r.totalCost = some q ∧ IsLeast (goalCosts p) q ∧
           chainFrom p p.startState edges ∧
           p.isGoal (pathEnd p.startState edges) = true ∧ costSum edges = q ∧
           r.actions = some (edges.map (fun e => e.1)))) := by
  intro fuel
  induction fuel with
  | zero =>
    intro fin ls recFuel _ hm _
    omega
  | succ fuel ih =>
    intro fin ls recFuel inv hm hrec
    rcases hrm : ls.frontier.removeMin with ⟨res, fr'⟩
    rcases res with _ | ⟨s, q⟩
    · refine ⟨⟨none, none, ls.numStatesExplored⟩, ?_,
        Or.inl ⟨rfl, rfl, ucs_exhausted inv hrm⟩⟩
      rw [ucsLoop, ucsStep_eq_none p recFuel ls hrm]
    · by_cases hg : p.isGoal s = true
      · obtain ⟨_, _, _, _, _, _, hminall, _, hedges⟩ :=
          ucs_pop_facts hnn inv hrm recFuel hrec
        obtain ⟨edges, hch, hend, hcost, hrecon⟩ := hedges
        refine ⟨⟨some (edges.map (fun e => e.1)), some q,
          ls.numStatesExplored + 1⟩, ?_, ?_⟩
        · rw [ucsLoop, ucsStep_eq_goal p recFuel ls hrm hg, hrecon]
        · right
          refine ⟨q, edges, rfl, ⟨⟨edges, ⟨hch, by rw [hend]; exact hg⟩, hcost⟩, ?_⟩,
            hch, by rw [hend]; exact hg, hcost, rfl⟩
          intro c hc
          obtain ⟨edges', hgp, hcost'⟩ := hc
          rw [← hcost']
          apply ucs_cut hnn inv hminall edges' hgp.1
          intro habs
          simp only [List.mem_map] at habs
          obtain ⟨x, hx, hxe⟩ := habs
          have hngx := inv.1.fin_nongoal x hx
          rw [hxe, hgp.2] at hngx
          simp at hngx
      · have hg' : p.isGoal s = false := by
          cases hh : p.isGoal s
          · rfl
          · exact absurd hh hg
        obtain ⟨inv', hdec⟩ := ucs_expand_pop hnn hcl hnd inv hrm hg'
        obtain ⟨r, hr, hout⟩ := ih (fin ++ [(s, q)]) _ recFuel inv' (by omega) hrec
        refine ⟨r, ?_, hout⟩
        rw [ucsLoop, ucsStep_eq_expand p recFuel ls hrm hg']
        exact hr

/-- `ucsSolve` with enough fuel: either a correct no-path report or an
optimal goal report. -/
theorem ucsSolve_correct {σ α : Type} [LinearOrder σ] (p : SearchProblem σ α)
    (states : List σ) (hnn : NonnegCosts p) (hcl : ClosedUnder p states)
    (hnd : states.Nodup) :
    ∀ fuel, ucsFuelBound p states ≤ fuel →
    ∃ r, ucsSolve p fuel = some r ∧
      ((r.actions = none ∧ r.totalCost = none ∧
        ∀ edges, chainFrom p p.startState edges →
          p.isGoal (pathEnd p.startState edges) = true → False) ∨
       (∃ q edges, r.totalCost = some q ∧ IsLeast (goalCosts p) q ∧
         chainFrom p p.startState edges ∧
         p.isGoal (pathEnd p.startState edges) = true ∧ costSum edges = q ∧
         r.actions = some (edges.map (fun e => e.1)))) := by
  intro fuel hfuel
  have hinv := ucsInv_init p states hcl
  have hfr : (PriorityQueue.empty.update p.startState 0).2 =
      ⟨[(0, p.startState)],
        fun x => if x = p.startState then some 0 else none⟩ := rfl
  have hμ : ucsMeasure p states
      ⟨(PriorityQueue.empty.update p.startState 0).2, fun _ => none, 0⟩ + 1 ≤ fuel := by
    have hfilter : states.filter (fun x => !(decide
        ((⟨(PriorityQueue.empty.update p.startState 0).2, fun _ => none, 0⟩ :
          UCSLoopState σ α).frontier.priorities x = some DONE))) = states := by
      apply List.filter_eq_self.mpr
      intro x _
      have hne : (⟨(PriorityQueue.empty.update p.startState 0).2, fun _ => none, 0⟩ :
          UCSLoopState σ α).frontier.priorities x ≠ some DONE := by
        show ((PriorityQueue.empty.update p.startState 0).2).priorities x ≠ some DONE
        rw [hfr]
        by_cases hxs : x = p.startState
        · simp only [hxs, if_pos rfl]
          intro habs
          exact absurd (Option.some.inj habs) (by decide)
        · simp [hxs]
      simp [hne]
    simp only [ucsMeasure, hfilter]
    have hheap : (⟨(PriorityQueue.empty.update p.startState 0).2, fun _ => none, 0⟩ :
        UCSLoopState σ α).frontier.heap.length = 1 := by
      show ((PriorityQueue.empty.update p.startState 0).2).heap.length = 1
      rw [hfr]
      rfl
    rw [hheap]
    unfold ucsFuelBound at hfuel
    omega
  obtain ⟨r, hr, hout⟩ := ucsLoop_correct hnn hcl hnd fuel []
    ⟨(PriorityQueue.empty.update p.startState 0).2, fun _ => none, 0⟩ fuel hinv hμ
    (by unfold ucsFuelBound at hfuel; omega)
  exact ⟨r, hr, hout⟩

/-! ### Assembly helpers for the claims -/

theorem dfsFold_mono {σ α : Type} (p : SearchProblem σ α) (fuel : Nat) (pc : Int)
    (hist : List (α × σ × Int)) :
    ∀ (l : List (α × σ × Int)) (st st' : DFSState σ α),
      l.foldlM (fun st' e =>
        dfsRecurse p fuel e.2.1 (pc + e.2.2) (hist ++ [e]) st') st = some st' →
      st.numStatesExplored ≤ st'.numStatesExplored := by
  intro l
  induction l with
  | nil =>
    intro st st' h
    simp only [List.foldlM_nil] at h
    cases h
    exact le_refl _
  | cons e l ihl =>
    intro st st' h
    simp only [List.foldlM_cons] at h
    rcases Option.bind_eq_some.mp h with ⟨mid, hmid, hrest⟩
    exact le_trans
      (dfsRecurse_shape p fuel e.2.1 (pc + e.2.2) (hist ++ [e]) st mid hmid).1
      (ihl mid st' hrest)

theorem futureCosts_start_eq {σ α : Type} (p : SearchProblem σ α) :
    futureCosts p p.startState = goalCosts p := by
  ext c
  constructor
  · rintro ⟨edges, h1, h2, h3⟩
    exact ⟨edges, ⟨h1, h2⟩, h3⟩
  · rintro ⟨edges, ⟨h1, h2⟩, h3⟩
    exact ⟨edges, h1, h2, h3⟩

theorem dpFold_error_frozen {σ α : Type} [LinearOrder σ] [LinearOrder α]
    (p : SearchProblem σ α) (fuel : Nat) (u : Unit) :
    ∀ (l : List (α × σ × Int)),
      l.foldl (dpFoldStep (fun s c => dpRecurse p fuel s c))
        (some (Except.error u)) = some (Except.error u) := by
  intro l
  induction l with
  | nil => rfl
  | cons e l ihl =>
    simp only [List.foldl_cons]
    exact ihl

/-- In a goal-free closed universe the memoized recursion always raises:
the bottommost dead end makes `min` see an empty sequence. -/
theorem dp_goalfree_error {σ α : Type} [LinearOrder σ] [LinearOrder α]
    (p : SearchProblem σ α) (states : List σ) (hcl : ClosedUnder p states)
    (hgf : ∀ s ∈ states, p.isGoal s = false) :
    ∀ (k fuel : Nat) (state : σ) (cache : DPCache σ α), state ∈ states →
      (∀ edges, chainFrom p state edges → edges.length ≤ k) → k + 1 ≤ fuel →
      (∀ s ∈ states, cache s = none) →
      dpRecurse p fuel state cache = some (Except.error ()) := by
  intro k
  induction k with
  | zero =>
    intro fuel state cache hstate hbound hfuel hcache
    obtain ⟨fuel, rfl⟩ : ∃ f, fuel = f + 1 := ⟨fuel - 1, by omega⟩
    have hsucc : p.succAndCost state = [] := by
      cases hs : p.succAndCost state with
      | nil => rfl
      | cons e l =>
        have := hbound [e] ⟨by rw [hs]; exact List.mem_cons_self _ _, trivial⟩
        simp at this
    rw [dpRecurse_miss p fuel state cache (hgf state hstate) (hcache state hstate)]
    rw [hsucc]
    rfl
  | succ k ihk =>
    intro fuel state cache hstate hbound hfuel hcache
    obtain ⟨fuel, rfl⟩ : ∃ f, fuel = f + 1 := ⟨fuel - 1, by omega⟩
    rw [dpRecurse_miss p fuel state cache (hgf state hstate) (hcache state hstate)]
    cases hs : p.succAndCost state with
    | nil => rfl
    | cons e l =>
      have he : e ∈ p.succAndCost state := by
        rw [hs]
        exact List.mem_cons_self _ _
      have hchild : dpRecurse p fuel e.2.1 cache = some (Except.error ()) := by
        refine ihk fuel e.2.1 cache (hcl.2 state hstate e he) ?_ (by omega) hcache
        intro edges hch
        have := hbound (e :: edges) ⟨he, hch⟩
        simpa using Nat.lt_succ_iff.mp (Nat.lt_of_lt_of_le (Nat.lt_succ_self _) this)
      simp only [List.foldl_cons]
      have hstep : dpFoldStep (fun s c => dpRecurse p fuel s c)
          (some (Except.ok (([], cache) : List (Int × α × σ × Int) × DPCache σ α))) e =
          some (Except.error ()) := by
        simp only [dpFoldStep, hchild]
      rw [hstep, dpFold_error_frozen]

theorem dynamicProgramming_goalfree {σ α : Type} [LinearOrder σ] [LinearOrder α]
    (p : SearchProblem σ α) (states : List σ) (hcl : ClosedUnder p states)
    (hac : Acyclic p states) (hgf : ∀ s ∈ states, p.isGoal s = false) :
    ∀ fuel, states.length + 1 ≤ fuel →
      dynamicProgramming p fuel = some (Except.error ()) := by
  intro fuel hfuel
  have hrun := dp_goalfree_error p states hcl hgf states.length fuel
    p.startState (fun _ => none) hcl.1
    (fun edges hch => chain_length_le hcl hac p.startState hcl.1 edges hch)
    (by omega) (fun _ _ => rfl)
  rw [dynamicProgramming, hrun]

/-- DFS on a goal-free finite acyclic universe terminates with all result
fields still absent. -/
theorem dfsSolve_goalfree {σ α : Type} (p : SearchProblem σ α) (states : List σ)
    (hcl : ClosedUnder p states) (hac : Acyclic p states)
    (hgf : ∀ s ∈ states, p.isGoal s = false) :
    ∀ fuel, states.length + 2 ≤ fuel →
      ∃ st, dfsSolve p fuel = some st ∧ st.solution = none ∧ st.actions = none ∧
        st.totalCost = none := by
  intro fuel hfuel
  obtain ⟨st', hrun, _⟩ := dfsRecurse_term p states hcl states.length fuel
    p.startState 0 [] ⟨none, none, none, 0, 0⟩ hcl.1
    (fun edges hch => chain_length_le hcl hac p.startState hcl.1 edges hch) (by omega)
  have hnone : st'.solution = none := by
    cases hsol : st'.solution with
    | none => rfl
    | some g =>
      obtain ⟨edges, hch, hgl, _, _⟩ := dfsRecurse_sound p fuel p.startState 0 []
        ⟨none, none, none, 0, 0⟩ st' hrun rfl (by rw [hsol]; rfl)
      have hmem : pathEnd p.startState edges ∈ states :=
        chainFrom_pathEnd_mem hcl p.startState edges hcl.1 hch
      rw [hgf _ hmem] at hgl
      simp at hgl
  obtain ⟨ha, ht, _⟩ := (dfsRecurse_shape p fuel p.startState 0 []
    ⟨none, none, none, 0, 0⟩ st' hrun).2.2 hnone
  exact ⟨st', hrun, hnone, ha, ht⟩

/-- Chains are invariant under per-state permutation of successor
lists. -/
theorem chain_transfer {σ α : Type} {p₁ p₂ : SearchProblem σ α}
    (hperm : ∀ s, (p₂.succAndCost s).Perm (p₁.succAndCost s)) :
    ∀ (edges : List (α × σ × Int)) (s : σ),
      chainFrom p₂ s edges ↔ chainFrom p₁ s edges := by
  intro edges
  induction edges with
  | nil => intro s; exact Iff.rfl
  | cons e rest ih =>
    intro s
    constructor
    · intro ⟨h1, h2⟩
      exact ⟨(hperm s).mem_iff.mp h1, (ih e.2.1).mp h2⟩
    · intro ⟨h1, h2⟩
      exact ⟨(hperm s).mem_iff.mpr h1, (ih e.2.1).mpr h2⟩

theorem goalCosts_transfer {σ α : Type} {p₁ p₂ : SearchProblem σ α}
    (hstart : p₂.startState = p₁.startState)
    (hgoal : ∀ s, p₂.isGoal s = p₁.isGoal s)
    (hperm : ∀ s, (p₂.succAndCost s).Perm (p₁.succAndCost s)) :
    goalCosts p₂ = goalCosts p₁ := by
  ext c
  constructor
  · rintro ⟨edges, ⟨h1, h2⟩, h3⟩
    refine ⟨edges, ⟨?_, ?_⟩, h3⟩
    · rw [← hstart]
      exact (chain_transfer hperm edges _).mp h1
    · rw [← hgoal, ← hstart]
      exact h2
  · rintro ⟨edges, ⟨h1, h2⟩, h3⟩
    refine ⟨edges, ⟨?_, ?_⟩, h3⟩
    · rw [hstart]
      exact (chain_transfer hperm edges _).mpr h1
    · rw [hgoal, hstart]
      exact h2

/-- When the start state is a goal, `ucsSolve` stops after the very first
pop with the empty action list, zero cost, and one explored state —
independently of the successor function. -/
theorem ucsSolve_start_goal {σ α : Type} [LinearOrder σ] (start : σ) (goal : σ → Bool)
    (succ : σ → List (α × σ × Int)) (h : goal start = true) :
    ∀ fuel, 1 ≤ fuel →
      ucsSolve (⟨start, goal, succ⟩ : SearchProblem σ α) fuel =
        some ⟨some [], some 0, 1⟩ := by
  intro fuel hf
  obtain ⟨f, rfl⟩ : ∃ f, fuel = f + 1 := ⟨fuel - 1, by omega⟩
  have haux : removeMinAux (fun x => if x = start then some (0 : Int) else none)
      [((0 : Int), start)] = (some (start, 0), []) := by
    by_cases hd : (if start = start then some (0 : Int) else none) = some DONE
    · exfalso
      rw [if_pos rfl] at hd
      exact absurd (Option.some.inj hd) (by decide)
    · rw [removeMinAux]
      rw [if_neg hd]
  have hrm : ((PriorityQueue.empty.update start 0).2 : PriorityQueue σ).removeMin =
      (some (start, 0),
        ⟨[], fun x => if x = start then some DONE
          else (fun y => if y = start then some (0 : Int) else none) x⟩) := by
    show PriorityQueue.removeMin
      (⟨[((0 : Int), start)], fun x => if x = start then some (0 : Int) else none⟩ :
        PriorityQueue σ) = _
    simp only [PriorityQueue.removeMin, haux]
  have hrecon : reconstructActions (fun _ => (none : Option (α × σ))) start (f + 1)
      start [] = some [] := by
    rw [reconstructActions, if_pos rfl]
  show ucsLoop (⟨start, goal, succ⟩ : SearchProblem σ α) (f + 1) (f + 1)
    ⟨(PriorityQueue.empty.update start 0).2, fun _ => none, 0⟩ =
      some ⟨some [], some 0, 1⟩
  rw [ucsLoop, ucsStep_eq_goal _ _ _ hrm h, hrecon]

theorem exampleProblem_nonneg : NonnegCosts exampleProblem := by
  intro s e he
  simp only [exampleProblem] at he
  split_ifs at he
  · simp only [List.mem_cons, List.not_mem_nil, or_false] at he
    rcases he with rfl | rfl
    · decide
    · decide
  · simp only [List.mem_singleton] at he
    subst he
    decide
  · simp only [List.mem_singleton] at he
    subst he
    decide
  · simp at he

theorem deadEndProblem_nonneg : NonnegCosts deadEndProblem := by
  intro s e he
  simp [deadEndProblem] at he

theorem exampleProblem_reach :
    ∀ s ∈ ([0, 1, 2, 3] : List Nat), ∃ c, c ∈ futureCosts exampleProblem s := by
  intro s hs
  simp only [List.mem_cons, List.mem_singleton, List.not_mem_nil, or_false] at hs
  rcases hs with rfl | rfl | rfl | rfl
  · exact ⟨2, ⟨[(10, 1, 1), (12, 3, 1)], by decide, by decide, by decide⟩⟩
  · exact ⟨1, ⟨[(12, 3, 1)], by decide, by decide, by decide⟩⟩
  · exact ⟨1, ⟨[(13, 3, 1)], by decide, by decide, by decide⟩⟩
  · exact ⟨0, ⟨[], by decide, by decide, by decide⟩⟩

theorem exampleRev_perm : ∀ s : Nat,
    (exampleProblemRev.succAndCost s).Perm (exampleProblem.succAndCost s) := by
  intro s
  by_cases h0 : s = 0
  · subst h0
    decide
  · by_cases h1 : s = 1
    · subst h1
      decide
    · by_cases h2 : s = 2
      · subst h2
        decide
      · simp only [exampleProblem, exampleProblemRev, if_neg h0, if_neg h1, if_neg h2]
        exact List.Perm.refl _

/-!  ### The claims -/

/-- C1: for every finite search problem with non-negative edge costs in
which some goal state is reachable from the start,
`UniformCostSearch.solve` sets `totalCost` to the minimum, over all paths
from `startState` to a goal state, of the sum of edge costs, and sets
`actions` to an action sequence realizing a path of that minimum cost. -/
theorem C1_ucs_optimal {σ α : Type} [LinearOrder σ] (p : SearchProblem σ α)
    (states : List σ) (hnn : NonnegCosts p) (hcl : ClosedUnder p states)
    (hnd : states.Nodup) (hreach : ∃ edges, IsGoalPath p edges) :
    ∀ fuel, ucsFuelBound p states ≤ fuel →
    ∃ r q edges, ucsSolve p fuel = some r ∧ r.totalCost = some q ∧
      IsLeast (goalCosts p) q ∧ r.actions = some (edges.map (fun e => e.1)) ∧
      IsGoalPath p edges ∧ costSum edges = q := by
  intro fuel hfuel
  obtain ⟨r, hr, hout⟩ := ucsSolve_correct p states hnn hcl hnd fuel hfuel
  rcases hout with ⟨_, _, hnogoal⟩ | ⟨q, edges, h1, h2, h3, h4, h5, h6⟩
  · obtain ⟨edges, hgp⟩ := hreach
    exact (hnogoal edges hgp.1 hgp.2).elim
  · exact ⟨r, q, edges, hr, h1, h2, h6, ⟨h3, h4⟩, h5⟩

/-- Witness for C1 on the concrete four-state example problem. -/
theorem C1_witness :
    ∃ r q edges, ucsSolve exampleProblem 20 = some r ∧ r.totalCost = some q ∧
      IsLeast (goalCosts exampleProblem) q ∧
      r.actions = some (edges.map (fun e => e.1)) ∧
      IsGoalPath exampleProblem edges ∧ costSum edges = q :=
  C1_ucs_optimal exampleProblem [0, 1, 2, 3] exampleProblem_nonneg (by decide)
    (by decide) ⟨[(10, 1, 1), (12, 3, 1)], by decide⟩ 20 (by decide)

/-- C2 (amended): on a finite acyclic goal-free universe with
non-negative costs, both `UniformCostSearch.solve` and
`DepthFirstSearch.solve` terminate normally with absent `actions` and
absent `totalCost`, while `dynamicProgramming` raises an error (python's
`min` of an empty generator raises `ValueError`). -/
theorem C2_no_path {σ α : Type} [LinearOrder σ] [LinearOrder α]
    (p : SearchProblem σ α) (states : List σ) (hnn : NonnegCosts p)
    (hcl : ClosedUnder p states) (hnd : states.Nodup) (hac : Acyclic p states)
    (hgf : ∀ s ∈ states, p.isGoal s = false) :
    ∀ fuel, ucsFuelBound p states ≤ fuel →
      (∀ edges, ¬ IsGoalPath p edges) ∧
      (∃ r, ucsSolve p fuel = some r ∧ r.actions = none ∧
        r.totalCost = none) ∧
      (∃ st, dfsSolve p fuel = some st ∧ st.actions = none ∧
        st.totalCost = none) ∧
      dynamicProgramming p fuel = some (Except.error ()) := by
  intro fuel hfuel
  have hfuel₂ : states.length + 2 ≤ fuel := by
    unfold ucsFuelBound at hfuel
    omega
  have hnogoal : ∀ edges, ¬ IsGoalPath p edges := by
    intro edges h
    obtain ⟨hch, hgl⟩ := h
    have hmem := chainFrom_pathEnd_mem hcl p.startState edges hcl.1 hch
    rw [hgf _ hmem] at hgl
    exact Bool.false_ne_true hgl
  refine ⟨hnogoal, ?_, ?_, ?_⟩
  · obtain ⟨r, hr, hout⟩ := ucsSolve_correct p states hnn hcl hnd fuel hfuel
    rcases hout with ⟨h1, h2, _⟩ | ⟨q, edges, _, _, h3, h4, _, _⟩
    · exact ⟨r, hr, h1, h2⟩
    · exact (hnogoal edges ⟨h3, h4⟩).elim
  · obtain ⟨st, hst, _, h1, h2⟩ := dfsSolve_goalfree p states hcl hac hgf fuel hfuel₂
    exact ⟨st, hst, h1, h2⟩
  · exact dynamicProgramming_goalfree p states hcl hac hgf fuel (by omega)

/-- Counterexample for C2 as stated: on the goalless no-edge problem no
goal path exists, yet `dynamicProgramming` terminates by raising an
error rather than reporting no path. -/
theorem C2_counterexample :
    (∀ edges, ¬ IsGoalPath deadEndProblem edges) ∧
    dynamicProgramming deadEndProblem 5 = some (Except.error ()) := by
  constructor
  · intro edges h
    exact Bool.false_ne_true h.2
  · rfl

/-- Witness for the amended C2 on the no-edge problem. -/
theorem C2_witness :
    (∀ edges, ¬ IsGoalPath deadEndProblem edges) ∧
    (∃ r, ucsSolve deadEndProblem 5 = some r ∧ r.actions = none ∧
      r.totalCost = none) ∧
    (∃ st, dfsSolve deadEndProblem 5 = some st ∧ st.actions = none ∧
      st.totalCost = none) ∧
    dynamicProgramming deadEndProblem 5 = some (Except.error ()) :=
  C2_no_path deadEndProblem [0] deadEndProblem_nonneg (by decide) (by decide)
    (acyclic_of_rank (by decide) (fun _ => 0) (by decide)) (by decide) 5
    (by decide)

/-- C3 (amended): on a finite ACYCLIC universe, when a start-to-goal path
exists `DepthFirstSearch.solve` terminates and records a valid goal path
(every consecutive edge exists in the successor relation and the final
state is a goal) together with its cost sum; minimality is not required. -/
theorem C3_dfs_finds_path {σ α : Type} (p : SearchProblem σ α) (states : List σ)
    (hcl : ClosedUnder p states) (hac : Acyclic p states)
    (hreach : ∃ edges, IsGoalPath p edges) :
    ∀ fuel, states.length + 2 ≤ fuel →
    ∃ st edges, dfsSolve p fuel = some st ∧
      st.actions = some (edges.map (fun e => e.1)) ∧ IsGoalPath p edges ∧
      st.totalCost = some (costSum edges) := by
  intro fuel hfuel
  obtain ⟨st', hrun, hfind⟩ := dfsRecurse_term p states hcl states.length fuel
    p.startState 0 [] ⟨none, none, none, 0, 0⟩ hcl.1
    (fun edges hch => chain_length_le hcl hac p.startState hcl.1 edges hch)
    (by omega)
  have hsome : st'.solution.isSome := by
    obtain ⟨edges, h1, h2⟩ := hreach
    exact hfind rfl ⟨edges, h1, h2⟩
  obtain ⟨edges, h1, h2, h3, h4⟩ := dfsRecurse_sound p fuel p.startState 0 []
    ⟨none, none, none, 0, 0⟩ st' hrun rfl hsome
  refine ⟨st', edges, hrun, ?_, ⟨h1, h2⟩, ?_⟩
  · simpa using h3
  · simpa using h4

/-- Counterexample for C3 as stated: on the cyclic problem a goal path
exists, yet `DepthFirstSearch.solve` never returns (the embedded run
aborts for every fuel), because the self-loop edge is explored first and
there is no visited set. -/
theorem C3_counterexample :
    (∃ edges, IsGoalPath cycleProblem edges) ∧
    ∀ fuel, dfsSolve cycleProblem fuel = none :=
  ⟨⟨[(6, 1, 1)], by decide⟩,
    fun fuel => dfsRecurse_cycle_none fuel 0 [] ⟨none, none, none, 0, 0⟩ rfl⟩

/-- Witness for the amended C3 on the concrete example problem. -/
theorem C3_witness :
    ∃ st edges, dfsSolve exampleProblem 20 = some st ∧
      st.actions = some (edges.map (fun e => e.1)) ∧
      IsGoalPath exampleProblem edges ∧
      st.totalCost = some (costSum edges) :=
  C3_dfs_finds_path exampleProblem [0, 1, 2, 3] (by decide)
    (acyclic_of_rank (by decide) (fun s => 3 - s) (by decide))
    ⟨[(10, 1, 1), (12, 3, 1)], by decide⟩ 20 (by decide)

/-- C4 (amended): on a finite acyclic universe with NON-NEGATIVE costs in
which every state can reach a goal, `dynamicProgramming` returns the same
total cost as `UniformCostSearch.solve`; the future cost of a goal state
is `0`, and the future cost of a non-goal state is the minimum over its
outgoing edges of edge cost plus the destination's future cost. -/
theorem C4_dp_equals_ucs {σ α : Type} [LinearOrder σ] [LinearOrder α]
    (p : SearchProblem σ α) (states : List σ) (hnn : NonnegCosts p)
    (hcl : ClosedUnder p states) (hnd : states.Nodup) (hac : Acyclic p states)
    (hreach : ∀ s ∈ states, ∃ c, c ∈ futureCosts p s) :
    (∀ fuel, ucsFuelBound p states ≤ fuel →
      ∃ tc hist r, dynamicProgramming p fuel = some (Except.ok (tc, hist)) ∧
        ucsSolve p fuel = some r ∧ r.totalCost = some tc) ∧
    (∀ (s : σ) (cache : DPCache σ α) (f : Nat), p.isGoal s = true →
      dpRecurse p (f + 1) s cache = some (Except.ok (0, cache))) ∧
    (∀ s ∈ states, p.isGoal s = false →
      ∃ fv, IsLeast (futureCosts p s) fv ∧
        IsLeast {x | ∃ e ∈ p.succAndCost s, ∃ fd,
          IsLeast (futureCosts p e.2.1) fd ∧ x = e.2.2 + fd} fv) := by
  refine ⟨?_, fun s cache f hg => dpRecurse_goal p f s cache hg,
    futureLeast_bellman p states hcl hac hnn hreach⟩
  intro fuel hfuel
  have hb : states.length + 2 ≤ fuel := by
    unfold ucsFuelBound at hfuel
    omega
  obtain ⟨tc, hist, hdp, hleast⟩ :=
    dynamicProgramming_correct p states hcl hac hnn hreach fuel hb
  obtain ⟨r, hr, hout⟩ := ucsSolve_correct p states hnn hcl hnd fuel hfuel
  rw [futureCosts_start_eq] at hleast
  rcases hout with ⟨_, _, hnogoal⟩ | ⟨q, edges, h1, h2, _, _, _, _⟩
  · obtain ⟨c, hc⟩ := hreach p.startState hcl.1
    obtain ⟨edges, hch, hgl, _⟩ := hc
    exact (hnogoal edges hch hgl).elim
  · refine ⟨tc, hist, r, hdp, hr, ?_⟩
    rw [h1, IsLeast.unique h2 hleast]

/-- Counterexample for C4 as stated: on the finite acyclic problem with
one negative edge cost, `dynamicProgramming` returns total cost 1 while
`UniformCostSearch.solve` returns total cost 2. -/
theorem C4_counterexample :
    ClosedUnder negCostProblem [0, 1, 3] ∧ Acyclic negCostProblem [0, 1, 3] ∧
    dynamicProgramming negCostProblem 20 =
      some (Except.ok (1, [(21, 1, 3), (22, 3, -2)])) ∧
    ucsSolve negCostProblem 20 = some ⟨some [20], some 2, 2⟩ ∧
    (1 : Int) ≠ 2 :=
  ⟨by decide,
   acyclic_of_rank (by decide)
     (fun s => if s = 0 then 2 else if s = 1 then 1 else 0) (by decide),
   by rfl, by rfl, by decide⟩

/-- Witness for the amended C4 on the concrete example problem. -/
theorem C4_witness :
    ∃ tc hist r,
      dynamicProgramming exampleProblem 20 = some (Except.ok (tc, hist)) ∧
      ucsSolve exampleProblem 20 = some r ∧ r.totalCost = some tc :=
  (C4_dp_equals_ucs exampleProblem [0, 1, 2, 3] exampleProblem_nonneg
    (by decide) (by decide)
    (acyclic_of_rank (by decide) (fun s => 3 - s) (by decide))
    exampleProblem_reach).1 20 (by decide)

/-- C5: `update state newPriority` returns `True` exactly when it changes
the stored best priority for `state` (no stored priority, or
`newPriority` strictly below it), in which case the stored priority
becomes `newPriority`; otherwise it returns `False` and leaves the queue
unchanged — and `update` never raises a state's stored priority. -/
theorem C5_update_spec {σ : Type} [LinearOrder σ] (pq : PriorityQueue σ)
    (state : σ) (newPriority : Int) :
    ((pq.update state newPriority).1 = true ↔
      (pq.priorities state = none ∨
        ∃ old, pq.priorities state = some old ∧ newPriority < old)) ∧
    ((pq.update state newPriority).1 = true →
      (pq.update state newPriority).2.priorities state = some newPriority) ∧
    ((pq.update state newPriority).1 = false →
      (pq.update state newPriority).2 = pq) ∧
    (∀ old new', pq.priorities state = some old →
      (pq.update state newPriority).2.priorities state = some new' →
      new' ≤ old) := by
  rcases update_cases pq state newPriority with
    ⟨hb, _, hpri, hcond⟩ | ⟨hb, heq, old, hold, hle⟩
  · refine ⟨⟨fun _ => hcond, fun _ => hb⟩, fun _ => ?_, fun habs => ?_, ?_⟩
    · rw [hpri]
      simp
    · rw [hb] at habs
      exact absurd habs (by decide)
    · intro old new' hold hnew
      rw [hpri] at hnew
      simp only [if_pos] at hnew
      have hv : newPriority = new' := Option.some.inj hnew
      rcases hcond with hnone | ⟨old', hold', hlt⟩
      · rw [hold] at hnone
        exact absurd hnone (by simp)
      · rw [hold] at hold'
        have h1 : old = old' := Option.some.inj hold'
        omega
  · have hfalse : ¬ ((pq.update state newPriority).1 = true) := by
      rw [hb]
      decide
    refine ⟨⟨fun habs => absurd habs hfalse, fun hcond2 => ?_⟩,
      fun habs => absurd habs hfalse, fun _ => heq, ?_⟩
    · exfalso
      rcases hcond2 with hnone | ⟨old', hold', hlt⟩
      · rw [hold] at hnone
        exact absurd hnone (by simp)
      · rw [hold] at hold'
        have h1 : old = old' := Option.some.inj hold'
        omega
    · intro old2 new' hold2 hnew
      rw [heq] at hnew
      rw [hold2] at hnew
      have h1 : old2 = new' := Option.some.inj hnew
      omega

/-- Witness for C5: inserting an absent state succeeds and stores the new
priority. -/
theorem C5_witness :
    ((PriorityQueue.empty : PriorityQueue Nat).update 0 5).1 = true ∧
    ((PriorityQueue.empty : PriorityQueue Nat).update 0 5).2.priorities 0 =
      some 5 := by
  have h := C5_update_spec (PriorityQueue.empty : PriorityQueue Nat) 0 5
  have hb : ((PriorityQueue.empty : PriorityQueue Nat).update 0 5).1 = true :=
    h.1.mpr (Or.inl rfl)
  exact ⟨hb, h.2.1 hb⟩

/-- C6 (amended): provided every priority passed to `update` is strictly
above the sentinel `DONE`, `removeMin` never returns a state it already
returned on the same queue instance. -/
theorem C6_no_refinalize {σ : Type} [LinearOrder σ] (ops : List (PQOp σ))
    (h : ∀ s q, PQOp.update s q ∈ ops → DONE < q) :
    (removedStates ops PriorityQueue.empty).Nodup :=
  (runOps_no_repeat ops PriorityQueue.empty h).1

/-- Counterexample for C6 as stated: updating a finalized state with a
priority below the sentinel `DONE` lets `removeMin` return the same
state twice. -/
theorem C6_counterexample :
    removedStates [PQOp.update (0 : Nat) 0, PQOp.removeMin,
      PQOp.update 0 (-200000), PQOp.removeMin] PriorityQueue.empty =
      [0, 0] ∧
    ¬ ([0, 0] : List Nat).Nodup := ⟨by rfl, by decide⟩

/-- Witness for the amended C6 on a concrete operation sequence that
re-updates a finalized state with an ordinary priority. -/
theorem C6_witness :
    (removedStates [PQOp.update (0 : Nat) 1, PQOp.removeMin, PQOp.update 0 1,
      PQOp.removeMin] PriorityQueue.empty).Nodup :=
  C6_no_refinalize _ (by
    intro s q hmem
    simp only [List.mem_cons, List.not_mem_nil, or_false] at hmem
    rcases hmem with h | h | h | h
    · obtain ⟨rfl, rfl⟩ := PQOp.update.inj h
      decide
    · exact absurd h (by simp)
    · obtain ⟨rfl, rfl⟩ := PQOp.update.inj h
      decide
    · exact absurd h (by simp))

/-- C7: on finite problems with non-negative costs, two runs of
`UniformCostSearch.solve` on problems differing only in the order of each
state's successor list return the same `totalCost`; and a single run is
deterministic: componentwise-identical inputs yield identical outputs. -/
theorem C7_order_invariant {σ α : Type} [LinearOrder σ] (p₁ p₂ : SearchProblem σ α)
    (states : List σ) (hnn : NonnegCosts p₁) (hcl : ClosedUnder p₁ states)
    (hnd : states.Nodup) (hstart : p₂.startState = p₁.startState)
    (hgoal : ∀ s, p₂.isGoal s = p₁.isGoal s)
    (hperm : ∀ s, (p₂.succAndCost s).Perm (p₁.succAndCost s)) :
    (∀ fuel, ucsFuelBound p₁ states ≤ fuel → ucsFuelBound p₂ states ≤ fuel →
      ∃ r₁ r₂, ucsSolve p₁ fuel = some r₁ ∧ ucsSolve p₂ fuel = some r₂ ∧
        r₁.totalCost = r₂.totalCost) ∧
    (∀ (p₃ : SearchProblem σ α), p₃.startState = p₁.startState →
      (∀ s, p₃.isGoal s = p₁.isGoal s) →
      (∀ s, p₃.succAndCost s = p₁.succAndCost s) →
      ∀ fuel, ucsSolve p₃ fuel = ucsSolve p₁ fuel) := by
  constructor
  · intro fuel hf1 hf2
    have hnn₂ : NonnegCosts p₂ := fun s e he => hnn s e ((hperm s).mem_iff.mp he)
    have hcl₂ : ClosedUnder p₂ states :=
      ⟨hstart ▸ hcl.1, fun s hs e he => hcl.2 s hs e ((hperm s).mem_iff.mp he)⟩
    obtain ⟨r₁, hr₁, hout₁⟩ := ucsSolve_correct p₁ states hnn hcl hnd fuel hf1
    obtain ⟨r₂, hr₂, hout₂⟩ := ucsSolve_correct p₂ states hnn₂ hcl₂ hnd fuel hf2
    refine ⟨r₁, r₂, hr₁, hr₂, ?_⟩
    rcases hout₁ with ⟨_, ht₁, hng₁⟩ | ⟨q₁, edges₁, ht₁, hl₁, hch₁, hgl₁, _, _⟩
    · rcases hout₂ with ⟨_, ht₂, _⟩ | ⟨q₂, edges₂, ht₂, hl₂, hch₂, hgl₂, _, _⟩
      · rw [ht₁, ht₂]
      · exfalso
        apply hng₁ edges₂
        · have hc := (chain_transfer hperm edges₂ p₂.startState).mp hch₂
          rwa [hstart] at hc
        · have hg := hgl₂
          rw [hgoal] at hg
          rwa [hstart] at hg
    · rcases hout₂ with ⟨_, ht₂, hng₂⟩ | ⟨q₂, edges₂, ht₂, hl₂, _, _, _, _⟩
      · exfalso
        apply hng₂ edges₁
        · rw [hstart]
          exact (chain_transfer hperm edges₁ p₁.startState).mpr hch₁
        · rw [hstart, hgoal]
          exact hgl₁
      · rw [ht₁, ht₂]
        rw [goalCosts_transfer hstart hgoal hperm] at hl₂
        rw [IsLeast.unique hl₁ hl₂]
  · intro p₃ h1 h2 h3 fuel
    have hp : p₃ = p₁ := by
      cases p₃
      cases p₁
      simp only [SearchProblem.mk.injEq]
      exact ⟨h1, funext h2, funext h3⟩
    rw [hp]

/-- Witness for C7: the example problem and its successor-reversed twin
return the same total cost. -/
theorem C7_witness :
    ∃ r₁ r₂, ucsSolve exampleProblem 20 = some r₁ ∧
      ucsSolve exampleProblemRev 20 = some r₂ ∧
      r₁.totalCost = r₂.totalCost :=
  (C7_order_invariant exampleProblem exampleProblemRev [0, 1, 2, 3]
    exampleProblem_nonneg (by decide) (by decide) rfl (fun s => rfl)
    exampleRev_perm).1 20 (by decide) (by decide)

/-- C8: inside `DepthFirstSearch.solve`, a recursive call entered after a
solution has been recorded returns immediately at entry with the state
unchanged — no field is modified. -/
theorem C8_short_circuit {σ α : Type} (p : SearchProblem σ α) (fuel : Nat)
    (state : σ) (pastCost : Int) (history : List (α × σ × Int))
    (st : DFSState σ α) (h : st.solution.isSome) :
    dfsRecurse p (fuel + 1) state pastCost history st = some st := by
  rw [dfsRecurse_succ, if_pos h]

/-- Witness for C8 on the example problem with a recorded solution. -/
theorem C8_witness :
    dfsRecurse exampleProblem 7 0 0 [] ⟨some 3, some [10, 12], some 2, 3, 3⟩ =
      some ⟨some 3, some [10, 12], some 2, 3, 3⟩ :=
  C8_short_circuit exampleProblem 6 0 0 [] ⟨some 3, some [10, 12], some 2, 3, 3⟩
    rfl

/-- C9: when the start state is a goal, `UniformCostSearch.solve` returns
empty `actions`, `totalCost` 0 and `numStatesExplored` 1, and the result
does not depend on `succAndCost` at all (it is never consulted). -/
theorem C9_start_goal {σ α : Type} [LinearOrder σ] (p : SearchProblem σ α)
    (h : p.isGoal p.startState = true) :
    ∀ fuel, 1 ≤ fuel →
      ucsSolve p fuel = some ⟨some [], some 0, 1⟩ ∧
      ∀ succ' : σ → List (α × σ × Int),
        ucsSolve (⟨p.startState, p.isGoal, succ'⟩ : SearchProblem σ α) fuel =
          some ⟨some [], some 0, 1⟩ := by
  intro fuel hf
  refine ⟨?_, fun succ' => ucsSolve_start_goal p.startState p.isGoal succ' h fuel hf⟩
  exact ucsSolve_start_goal p.startState p.isGoal p.succAndCost h fuel hf

/-- Witness for C9 on a one-state problem whose start is a goal. -/
theorem C9_witness :
    ucsSolve (⟨0, fun s => s == 0, fun _ => ([] : List (Nat × Nat × Int))⟩ :
      SearchProblem Nat Nat) 3 = some ⟨some [], some 0, 1⟩ :=
  ((C9_start_goal (⟨0, fun s => s == 0, fun _ => []⟩ : SearchProblem Nat Nat)
    rfl 3 (by decide)).1)

/-- C10: `DepthFirstSearch.solve` keeps no visited set: every recursive
call entered while no solution is recorded increments
`numStatesExplored`; concretely, the goal-free diamond graph has only 4
distinct states but the traversal counts 5 visits, re-expanding the join
state once per path. -/
theorem C10_count_per_visit :
    (∀ (σ α : Type) (p : SearchProblem σ α) (fuel : Nat) (state : σ)
      (pc : Int) (hist : List (α × σ × Int)) (st st' : DFSState σ α),
      st.solution = none →
      dfsRecurse p (fuel + 1) state pc hist st = some st' →
      st.numStatesExplored + 1 ≤ st'.numStatesExplored) ∧
    (dfsSolve diamondProblem 20 = some ⟨none, none, none, 5, 4⟩ ∧
      ClosedUnder diamondProblem [0, 1, 2, 3] ∧
      ([0, 1, 2, 3] : List Nat).length < 5) := by
  constructor
  · intro σ α p fuel state pc hist st st' hnone hrun
    have hsol : ¬ (st.solution.isSome = true) := by simp [hnone]
    rw [dfsRecurse_succ, if_neg hsol] at hrun
    by_cases hgoal : p.isGoal state
    · rw [if_pos hgoal] at hrun
      cases hrun
      simp
    · rw [if_neg hgoal] at hrun
      have hm := dfsFold_mono p fuel pc hist (p.succAndCost state) _ st' hrun
      simp at hm
      omega
  · exact ⟨by rfl, by decide, by decide⟩

/-- Witness for C10: the first call of the diamond run increments the
explored counter from 0. -/
theorem C10_witness : (0 : Nat) + 1 ≤ 5 :=
  C10_count_per_visit.1 Nat Nat diamondProblem 19 0 0 []
    ⟨none, none, none, 0, 0⟩ ⟨none, none, none, 5, 4⟩ rfl (by rfl)

end SearchUtil
